import Mathlib

/-! Trace reader of `src/Reader.cpp`.

A shallow embedding of class `Reader` (the trace-stepping engine) and of the
parts of `ReaderCLI` that drive it.

Conventions of the embedding.

* `uint8_t` / `uint64_t` values are natural numbers; every place where the
  C++ code converts or wraps carries an explicit `% 256` or `% 2 ^ 64`.
* `OPDefines.h` is not part of the sources.  Both the enum `scheme_opcodes`
  and the table `opcode_names` are generated from its `_OP_DEF` entries, so
  the header is a parameter `ops : List String`, the list of the entries'
  names in order.
* A read of `m_buffer` or `m_breakpoints` outside the vector is undefined
  behaviour in C++; the embedding returns `none` (or `Outcome.fault`) there.
* The loops of `cont` and `finish` take a budget that counts the calls of
  `step`; running out of budget is `Outcome.timeout`, distinct from a fault.
-/

namespace Extempore

/-! ## Opcodes (`scheme_opcodes`, `opcode_names`) -/

/-- Enumerator `OP_RET`: it follows the entries of `OPDefines.h`, so its value
is their number. -/
def OP_RET (ops : List String) : Nat := ops.length

/-- Enumerator `OP_MAXDEFINED`, the one after `OP_RET`. -/
def OP_MAXDEFINED (ops : List String) : Nat := OP_RET ops + 1

/-- Table `opcode_names`: the names of the entries, then the string RET. -/
def opcode_names (ops : List String) : List String := ops ++ ["RET"]

/-! ## Engine state -/

/-- Values of `Reader::ExecState`. -/
inductive ExecState where
  | STATE_BREAKPOINT
  | STATE_STOP
  | STATE_FINISH
  deriving DecidableEq, Repr

/-- Data members of class `Reader`. -/
structure Reader where
  /-- Field `uint64_t m_ip`. -/
  m_ip : Nat
  /-- Field `std::vector<opcode> m_buffer`. -/
  m_buffer : List Nat
  /-- Field `std::array<uint64_t, 256> m_hitcounts`. -/
  m_hitcounts : List Nat
  /-- Field `std::vector<bool> m_breakpoints`. -/
  m_breakpoints : List Bool
  deriving DecidableEq, Repr

/-- Scoped token `Reader::ip_stack`; the `m_reader` pointer is the engine
state that the operations below thread explicitly. -/
structure ip_stack where
  /-- Field `uint64_t m_ip`, the saved instruction pointer. -/
  m_ip : Nat
  deriving DecidableEq, Repr

/-- Result of a loop of the engine: it returned a status and left a state, it
read outside a vector, or the budget of `step` calls ran out. -/
inductive Outcome where
  | ret (status : ExecState) (r : Reader)
  | fault
  | timeout
  deriving DecidableEq, Repr

/-- Result of an operation that writes to `std::cout`: the text written, a read
outside a vector or table, or the loop budget ran out. -/
inductive Emit where
  | text (out : String)
  | fault
  | timeout
  deriving DecidableEq, Repr

/-- Range facts that the C++ types give for free: `m_ip` and the counters are
64-bit, the buffer holds bytes, there are 256 counters, and the buffer length
is a `std::streamsize` (signed 64-bit). -/
def TypeOk (r : Reader) : Prop :=
  r.m_ip < 2 ^ 64 ∧ r.m_buffer.length < 2 ^ 63 ∧ (∀ b ∈ r.m_buffer, b < 256) ∧
    r.m_hitcounts.length = 256 ∧ (∀ c ∈ r.m_hitcounts, c < 2 ^ 64)

/-- The breakpoint flags are sized to the buffer, as `load` leaves them. -/
def Sized (r : Reader) : Prop := r.m_breakpoints.length = r.m_buffer.length

namespace Reader

/-- Constructor `Reader()`: IP zero, all counters zero, empty vectors. -/
def new : Reader :=
  { m_ip := 0, m_buffer := [], m_hitcounts := List.replicate 256 0, m_breakpoints := [] }

/-- Effect of `std::vector::resize(n)` with value-initialised new elements. -/
def resize {α : Type} (l : List α) (n : Nat) (d : α) : List α :=
  l.take n ++ List.replicate (n - l.length) d

/-- Method `load`.  The file system is outside the program: `file` is `none`
when the file cannot be opened, and otherwise the bytes that end up in the
resized buffer together with whether `file.read` succeeded. -/
def load (file : Option (List Nat × Bool)) (r : Reader) : Bool × Reader :=
  match file with
  | none => (false, r)
  | some (bytes, readOk) =>
    (readOk, { r with m_buffer := bytes,
                      m_breakpoints := resize r.m_breakpoints bytes.length false })

/-- Method `getIp`. -/
def getIp (r : Reader) : Nat := r.m_ip

/-- Method `getNumOps`. -/
def getNumOps (r : Reader) : Nat := r.m_buffer.length

/-- Method `getOp`: `op == 254 ? OP_RET : op`, converted to `opcode`. -/
def getOp (ops : List String) (r : Reader) (ip : Nat) : Option Nat :=
  match r.m_buffer[ip]? with
  | none => none
  | some op => some ((if op = 254 then OP_RET ops else op) % 256)

/-- Method `getCurrentOp`. -/
def getCurrentOp (ops : List String) (r : Reader) : Option Nat :=
  getOp ops r (getIp r)

/-- Method `getInstructionSize`; `return -1` as a `uint8_t` is 255. -/
def getInstructionSize (ops : List String) (r : Reader) (ip : Nat) : Option Nat :=
  match getOp ops r ip with
  | none => none
  | some op =>
    if op < OP_RET ops then some 1
    else if op = OP_RET ops then some 2
    else some 255

/-- Method `getCurrentInstructionSize`. -/
def getCurrentInstructionSize (ops : List String) (r : Reader) : Option Nat :=
  getInstructionSize ops r r.m_ip

/-- Method `isValidOp`. -/
def isValidOp (ops : List String) (op : Nat) : Bool := decide (op < OP_MAXDEFINED ops)

/-- Method `atBreakpoint`. -/
def atBreakpoint (r : Reader) : Option Bool := r.m_breakpoints[getIp r]?

/-- Method `step`.  The counter index is a `uint8_t` into a 256-element
array, so that access is always in range. -/
def step (ops : List String) (r : Reader) : Option (ExecState × Reader) :=
  match getCurrentInstructionSize ops r with
  | none => none
  | some sz =>
    let r1 : Reader := { r with m_ip := (r.m_ip + sz) % 2 ^ 64 }
    if r1.m_ip ≥ r1.m_buffer.length then some (ExecState.STATE_FINISH, r1)
    else
      match getCurrentOp ops r1 with
      | none => none
      | some op =>
        let r2 : Reader :=
          { r1 with m_hitcounts :=
              r1.m_hitcounts.set op ((r1.m_hitcounts.getD op 0 + 1) % 2 ^ 64) }
        match atBreakpoint r2 with
        | none => none
        | some true => some (ExecState.STATE_BREAKPOINT, r2)
        | some false => some (ExecState.STATE_STOP, r2)

/-- Method `finish`; `fuel` bounds the number of `step` calls. -/
def finish (ops : List String) : Nat → Reader → Outcome
  | fuel, r =>
    match getCurrentOp ops r with
    | none => Outcome.fault
    | some op =>
      if op ≠ OP_RET ops then
        match fuel with
        | 0 => Outcome.timeout
        | k + 1 =>
          match step ops r with
          | none => Outcome.fault
          | some (ExecState.STATE_STOP, r1) => finish ops k r1
          | some (status, r1) => Outcome.ret status r1
      else Outcome.ret ExecState.STATE_STOP r

/-- Method `cont`; `fuel` bounds the number of `step` calls. -/
def cont (ops : List String) : Nat → Reader → Outcome
  | 0, _ => Outcome.timeout
  | k + 1, r =>
    match step ops r with
    | none => Outcome.fault
    | some (ExecState.STATE_STOP, r1) => cont ops k r1
    | some (status, r1) => Outcome.ret status r1

/-- Method `jump`. -/
def jump (r : Reader) (ip : Nat) : Reader := { r with m_ip := ip }

/-- Method `push`: the returned value and the state after the call. -/
def push (r : Reader) (ip : Nat) : Nat × Reader :=
  let currentIp := getIp r
  (currentIp, jump r ip)

/-- Method `pop`. -/
def pop (r : Reader) (ip : Nat) : Reader := jump r ip

/-- Constructor of `ip_stack`: `m_ip(reader->push(ip))`. -/
def ip_stack_ctor (r : Reader) (ip : Nat) : ip_stack × Reader :=
  let p := push r ip
  ({ m_ip := p.1 }, p.2)

/-- Destructor of `ip_stack`: `m_reader->pop(m_ip)`. -/
def ip_stack_dtor (f : ip_stack) (r : Reader) : Reader := pop r f.m_ip

/-- Method `get_ip_frame`: the token is constructed in place in the caller. -/
def get_ip_frame (r : Reader) (ip : Nat) : ip_stack × Reader := ip_stack_ctor r ip

/-- The state after `n` calls of `step` that all returned `STATE_STOP`. -/
def stepStops (ops : List String) : Nat → Reader → Option Reader
  | 0, r => some r
  | n + 1, r =>
    match step ops r with
    | some (ExecState.STATE_STOP, r1) => stepStops ops n r1
    | _ => none

/-- The state after `n` calls of `step` in a row, whatever each returned. -/
def stepTimes (ops : List String) : Nat → Reader → Option Reader
  | 0, r => some r
  | n + 1, r =>
    match step ops r with
    | some (_, r1) => stepTimes ops n r1
    | none => none

/-! ### Output -/

/-- The `case 'o'` block of `print`: the name of the current opcode when
`isValidOp` holds, the marker `!ERR!` otherwise. -/
def printOp (ops : List String) (r : Reader) : Option String :=
  match getCurrentOp ops r with
  | none => none
  | some op => if isValidOp ops op then (opcode_names ops)[op]? else some "!ERR!"

/-- The `while (i < size)` loop of `print`, at index `i` with `out` written so
far; `fuel` bounds the number of iterations. -/
def printLoop (ops : List String) (r : Reader) (fmt : List Char) : Nat → Nat → String → Emit
  | 0, i, out => if i < fmt.length then Emit.timeout else Emit.text out
  | fuel + 1, i, out =>
    if h : i < fmt.length then
      let c := fmt[i]
      if c = '%' then
        if h1 : i < fmt.length - 1 then
          let d := fmt[i + 1]
          if d = 'i' then printLoop ops r fmt fuel (i + 2) (out ++ toString r.m_ip)
          else if d = 'o' then
            match printOp ops r with
            | none => Emit.fault
            | some name => printLoop ops r fmt fuel (i + 2) (out ++ name)
          else if d = '%' then printLoop ops r fmt fuel (i + 2) (out ++ "%")
          else printLoop ops r fmt fuel (i + 2) out
        else printLoop ops r fmt fuel (i + 1) out
      else if c = '\\' then
        if h1 : i < fmt.length - 1 then
          let d := fmt[i + 1]
          if d = 'n' then printLoop ops r fmt fuel (i + 2) (out ++ "\n")
          else if d = 't' then printLoop ops r fmt fuel (i + 2) (out ++ "\t")
          else if d = '\\' then printLoop ops r fmt fuel (i + 2) (out ++ "\\")
          else printLoop ops r fmt fuel (i + 2) out
        else printLoop ops r fmt fuel (i + 1) out
      else printLoop ops r fmt fuel (i + 1) (out ++ String.singleton c)
    else Emit.text out

/-- Method `print`, with a budget of `fuel` loop iterations. -/
def printFuel (ops : List String) (r : Reader) (fmt : String) (fuel : Nat) : Emit :=
  printLoop ops r fmt.toList fuel 0 ""

/-- Method `print`: every iteration consumes a character, so a budget of the
template length is enough. -/
def print (ops : List String) (r : Reader) (fmt : String) : Emit :=
  printFuel ops r fmt fmt.toList.length

/-- Text that the spec prescribes for the character after a percent sign. -/
def specDirective (ipText opText : String) (d : Char) : String :=
  if d = 'i' then ipText else if d = 'o' then opText else if d = '%' then "%" else ""

/-- Text that the spec prescribes for the character after a backslash. -/
def specEscape (d : Char) : String :=
  if d = 'n' then "\n" else if d = 't' then "\t" else if d = '\\' then "\\" else ""

/-- The output of `formatTrace` in the spec's words: one left-to-right scan,
where `ipText` is the decimal IP and `opText` the text for the current
opcode. -/
def formatTrace (ipText opText : String) : List Char → String
  | [] => ""
  | c :: rest =>
    if c = '%' then
      match rest with
      | [] => ""
      | d :: rest1 => specDirective ipText opText d ++ formatTrace ipText opText rest1
    else if c = '\\' then
      match rest with
      | [] => ""
      | d :: rest1 => specEscape d ++ formatTrace ipText opText rest1
    else String.singleton c ++ formatTrace ipText opText rest

/-- Whether the scan of the spec meets the directive percent-o in a template. -/
def usesOp : List Char → Bool
  | [] => false
  | c :: rest =>
    if c = '%' then
      match rest with
      | [] => false
      | d :: rest1 => d = 'o' || usesOp rest1
    else if c = '\\' then
      match rest with
      | [] => false
      | _ :: rest1 => usesOp rest1
    else usesOp rest

/-- Body of the loop of `printCounts` over the counter indices `idx`. -/
def printCountsLoop (ops : List String) (r : Reader) : List Nat → String → Option String
  | [], out => some out
  | i :: idx, out =>
    let count := r.m_hitcounts.getD i 0
    if count ≠ 0 then
      match (opcode_names ops)[i]? with
      | none => none
      | some name => printCountsLoop ops r idx (out ++ name ++ ": " ++ toString count ++ "\n")
    else printCountsLoop ops r idx out

/-- Method `printCounts`; `none` is a read outside `opcode_names`. -/
def printCounts (ops : List String) (r : Reader) : Option String :=
  printCountsLoop ops r (List.range 256) "Counts:\n"

/-- Method `printBreakpoints`. -/
def printBreakpoints (r : Reader) : String :=
  (List.range r.m_breakpoints.length).foldl
    (fun out i => if r.m_breakpoints.getD i false then out ++ toString i ++ "\n" else out)
    "Breakpoints:\n"

/-! ### Well-formed traces and reachable states -/

/-- Offsets reached from offset 0 by whole-instruction advances: one byte over
an ordinary opcode, two bytes over the sentinel 254. -/
inductive InstrStart (ops : List String) (buf : List Nat) : Nat → Prop where
  | zero : InstrStart ops buf 0
  | ordinary (p raw : Nat) : InstrStart ops buf p → buf[p]? = some raw → raw < OP_RET ops →
      InstrStart ops buf (p + 1)
  | terminator (p : Nat) : InstrStart ops buf p → buf[p]? = some 254 →
      InstrStart ops buf (p + 2)

/-- A well-formed instruction stream: every instruction start inside the
buffer holds an ordinary opcode or the sentinel 254, and a sentinel is followed
by its operand byte inside the buffer. -/
def WellFormedTrace (ops : List String) (buf : List Nat) : Prop :=
  ∀ p, InstrStart ops buf p → p < buf.length →
    ∃ raw, buf[p]? = some raw ∧ (raw < OP_RET ops ∨ (raw = 254 ∧ p + 1 < buf.length))

/-- Engine states that the public operations of `Reader` produce from a
constructed engine: `load`, then any of `step`, `cont`, `finish`, `jump`,
`push`, `pop`, `get_ip_frame` and the destructor of its token.  The printing
operations return text only and leave the state as it is. -/
inductive Reachable (ops : List String) : Reader → Prop where
  | by_load (file : Option (List Nat × Bool)) :
      Reachable ops (load file Reader.new).2
  | by_reload (r : Reader) (file : Option (List Nat × Bool)) :
      Reachable ops r → Reachable ops (load file r).2
  | by_step (r r1 : Reader) (st : ExecState) :
      Reachable ops r → step ops r = some (st, r1) → Reachable ops r1
  | by_cont (r r1 : Reader) (fuel : Nat) (st : ExecState) :
      Reachable ops r → cont ops fuel r = Outcome.ret st r1 → Reachable ops r1
  | by_finish (r r1 : Reader) (fuel : Nat) (st : ExecState) :
      Reachable ops r → finish ops fuel r = Outcome.ret st r1 → Reachable ops r1
  | by_jump (r : Reader) (ip : Nat) : Reachable ops r → Reachable ops (jump r ip)
  | by_push (r : Reader) (ip : Nat) : Reachable ops r → Reachable ops (push r ip).2
  | by_pop (r : Reader) (ip : Nat) : Reachable ops r → Reachable ops (pop r ip)
  | by_frame (r : Reader) (ip : Nat) : Reachable ops r → Reachable ops (get_ip_frame r ip).2
  | by_frame_end (r : Reader) (f : ip_stack) :
      Reachable ops r → Reachable ops (ip_stack_dtor f r)

/-- A header with three entries, used for concrete evaluations. -/
def exOps : List String := ["A", "B", "C"]

/-- A loaded engine on the trace `[0, 1, 254, 7]` with a breakpoint at
offset 1, used for concrete evaluations. -/
def exReader : Reader :=
  { m_ip := 0, m_buffer := [0, 1, 254, 7], m_hitcounts := List.replicate 256 0,
    m_breakpoints := [false, true, false, false] }

end Reader

/-! ## Command layer (`ReaderCLI`) -/

/-- Data members of class `ReaderCLI` that the commands below use. -/
structure ReaderCLI where
  /-- Field `Reader m_reader`. -/
  m_reader : Reader
  /-- Field `bool m_running`. -/
  m_running : Bool
  /-- Field `std::string m_info`. -/
  m_info : String
  /-- Field `std::string m_prompt`. -/
  m_prompt : String
  deriving DecidableEq, Repr

namespace ReaderCLI

/-- Constructor `ReaderCLI()`. -/
def new : ReaderCLI :=
  { m_reader := Reader.new, m_running := false, m_info := "", m_prompt := "> " }

/-- Method `info`. -/
def info (ops : List String) (cli : ReaderCLI) : Emit :=
  Reader.print ops cli.m_reader cli.m_info

/-- Method `prompt`. -/
def prompt (ops : List String) (cli : ReaderCLI) : Emit :=
  Reader.print ops cli.m_reader cli.m_prompt

/-- Method `setInfo`. -/
def setInfo (cli : ReaderCLI) (text : String) : ReaderCLI := { cli with m_info := text }

/-- Command `s`, registered as `getInfoCommand` of `m_reader.step()`: the call
of `step`, then `info()`.  The result is the new state and what `info` wrote;
`none` when `step` reads outside the buffer. -/
def command_s (ops : List String) (cli : ReaderCLI) : Option (ReaderCLI × Emit) :=
  match Reader.step ops cli.m_reader with
  | none => none
  | some (_, r1) => some ({ cli with m_reader := r1 }, info ops { cli with m_reader := r1 })

/-- Command `counts`, registered as `getCommand` of `m_reader.printCounts()`. -/
def command_counts (ops : List String) (cli : ReaderCLI) : Option String :=
  Reader.printCounts ops cli.m_reader

/-- The `while (count && ip < getNumOps())` loop of method `raw`, with `out`
written so far. -/
def rawLoop (ops : List String) (r : Reader) : Nat → Nat → String → Option String
  | 0, _, out => some out
  | count + 1, ip, out =>
    if ip < Reader.getNumOps r then
      match Reader.getOp ops r ip with
      | none => none
      | some op => rawLoop ops r count ((ip + 1) % 2 ^ 64) (out ++ toString op ++ "\n")
    else some out

/-- Method `raw`.  The arguments are given as the numbers that the string
streams read from them; more than two arguments write to `std::cerr` only. -/
def raw (ops : List String) (cli : ReaderCLI) (args : List Nat) : Option String :=
  match args with
  | [] => rawLoop ops cli.m_reader 10 (Reader.getIp cli.m_reader) ""
  | [count] => rawLoop ops cli.m_reader count (Reader.getIp cli.m_reader) ""
  | [ip, count] => rawLoop ops cli.m_reader count ip ""
  | _ => some ""

end ReaderCLI

instance (r : Reader) : Decidable (TypeOk r) := by
  unfold TypeOk
  infer_instance

instance (r : Reader) : Decidable (Sized r) := by
  unfold Sized
  infer_instance

/-! ## Decoding: `getOp` and `getInstructionSize` -/

namespace Reader

theorem getOp_of_byte (ops : List String) (r : Reader) (ip raw : Nat)
    (h : r.m_buffer[ip]? = some raw) :
    getOp ops r ip = some ((if raw = 254 then OP_RET ops else raw) % 256) := by
  simp [getOp, h]

theorem getOp_isSome (ops : List String) (r : Reader) (ip : Nat)
    (h : ip < r.m_buffer.length) : ∃ op, getOp ops r ip = some op ∧ op < 256 := by
  have hb : r.m_buffer[ip]? = some r.m_buffer[ip] := List.getElem?_eq_getElem h
  exact ⟨_, getOp_of_byte ops r ip _ hb, Nat.mod_lt _ (by decide)⟩

theorem getOp_none (ops : List String) (r : Reader) (ip : Nat)
    (h : r.m_buffer.length ≤ ip) : getOp ops r ip = none := by
  have hb : r.m_buffer[ip]? = none := List.getElem?_eq_none h
  simp [getOp, hb]

theorem getInstructionSize_cases (ops : List String) (r : Reader) (ip : Nat)
    (h : ip < r.m_buffer.length) :
    ∃ sz, getInstructionSize ops r ip = some sz ∧ (sz = 1 ∨ sz = 2 ∨ sz = 255) := by
  obtain ⟨op, hop, _⟩ := getOp_isSome ops r ip h
  unfold getInstructionSize
  rw [hop]
  by_cases h1 : op < OP_RET ops
  · exact ⟨1, by simp [h1], Or.inl rfl⟩
  · by_cases h2 : op = OP_RET ops
    · exact ⟨2, by simp [h2], Or.inr (Or.inl rfl)⟩
    · exact ⟨255, by simp [h1, h2], Or.inr (Or.inr rfl)⟩

theorem getOp_byte_cases (ops : List String) (r : Reader) (ip raw : Nat)
    (hops : OP_RET ops < 256) (hraw : r.m_buffer[ip]? = some raw) (hbyte : raw < 256) :
    (raw = 254 → getOp ops r ip = some (OP_RET ops)) ∧
    (raw ≠ 254 → getOp ops r ip = some raw) := by
  rw [getOp_of_byte ops r ip raw hraw]
  constructor
  · intro h
    simp [h, Nat.mod_eq_of_lt hops]
  · intro h
    simp [h, Nat.mod_eq_of_lt hbyte]

theorem getInstructionSize_byte_cases (ops : List String) (r : Reader) (ip raw : Nat)
    (hops : OP_RET ops ≤ 254) (hraw : r.m_buffer[ip]? = some raw) :
    (raw < OP_RET ops → getInstructionSize ops r ip = some 1) ∧
    (raw = 254 → getInstructionSize ops r ip = some 2) := by
  unfold getInstructionSize
  rw [getOp_of_byte ops r ip raw hraw]
  constructor
  · intro h
    have h254 : raw ≠ 254 := by omega
    have hm : raw % 256 = raw := Nat.mod_eq_of_lt (by omega)
    simp [h254, hm, h]
  · intro h
    have hm : OP_RET ops % 256 = OP_RET ops := Nat.mod_eq_of_lt (by omega)
    simp [h, hm]

/-- C3: on an in-range offset `getOp` returns `OP_RET` when the raw byte is
254, whatever else the buffer holds, and returns the raw byte itself for every
other byte value, valid opcode or not. -/
theorem getOp_sentinel_or_raw (ops : List String) (r : Reader) (ip raw : Nat)
    (hops : OP_RET ops < 256) (hraw : r.m_buffer[ip]? = some raw) (hbyte : raw < 256) :
    ip < r.m_buffer.length ∧
    (raw = 254 → getOp ops r ip = some (OP_RET ops)) ∧
    (raw ≠ 254 → getOp ops r ip = some raw) := by
  refine ⟨?_, getOp_byte_cases ops r ip raw hops hraw hbyte⟩
  by_cases h : ip < r.m_buffer.length
  · exact h
  · rw [List.getElem?_eq_none (Nat.le_of_not_lt h)] at hraw
    cases hraw

theorem getOp_sentinel_or_raw_witness :
    getOp ["A", "B", "C"] { Reader.new with m_buffer := [7, 254] } 1
        = some (OP_RET ["A", "B", "C"]) ∧
    getOp ["A", "B", "C"] { Reader.new with m_buffer := [7, 254] } 0 = some 7 :=
  ⟨(getOp_sentinel_or_raw ["A", "B", "C"] { Reader.new with m_buffer := [7, 254] } 1 254
      (by decide) (by decide) (by decide)).2.1 rfl,
   (getOp_sentinel_or_raw ["A", "B", "C"] { Reader.new with m_buffer := [7, 254] } 0 7
      (by decide) (by decide) (by decide)).2.2 (by decide)⟩

/-- C4: with at most 254 ordinary opcodes, an in-range offset whose raw byte is
an ordinary opcode (below `OP_RET`) has instruction size 1, and one whose raw
byte is the sentinel 254 has instruction size 2, whatever byte follows. -/
theorem getInstructionSize_valid (ops : List String) (r : Reader) (ip raw : Nat)
    (hops : OP_RET ops ≤ 254) (hraw : r.m_buffer[ip]? = some raw) :
    (raw < OP_RET ops → getInstructionSize ops r ip = some 1) ∧
    (raw = 254 → getInstructionSize ops r ip = some 2) :=
  getInstructionSize_byte_cases ops r ip raw hops hraw

theorem getInstructionSize_valid_witness :
    getInstructionSize ["A", "B", "C"] { Reader.new with m_buffer := [1, 254, 9] } 0
        = some 1 ∧
    getInstructionSize ["A", "B", "C"] { Reader.new with m_buffer := [1, 254, 9] } 1
        = some 2 :=
  ⟨(getInstructionSize_valid ["A", "B", "C"] { Reader.new with m_buffer := [1, 254, 9] } 0 1
      (by decide) (by decide)).1 (by decide),
   (getInstructionSize_valid ["A", "B", "C"] { Reader.new with m_buffer := [1, 254, 9] } 1 254
      (by decide) (by decide)).2 rfl⟩

/-- C5, as stated, fails: with three ordinary opcodes the raw byte 3 is neither
an ordinary opcode nor the sentinel 254, yet its instruction size is 2 and not
the invalid marker 255. -/
theorem getInstructionSize_raw_OP_RET_counterexample :
    ({ Reader.new with m_buffer := [3] } : Reader).m_buffer[0]? = some 3 ∧
    ¬ (3 < OP_RET ["A", "B", "C"]) ∧ (3 : Nat) ≠ 254 ∧
    getInstructionSize ["A", "B", "C"] { Reader.new with m_buffer := [3] } 0 = some 2 ∧
    getInstructionSize ["A", "B", "C"] { Reader.new with m_buffer := [3] } 0 ≠ some 255 := by
  decide

/-- C5, amended: an in-range offset whose raw byte is above `OP_RET` and is
not the sentinel 254 has the invalid size marker 255, which differs from the
sizes 1 and 2; a raw byte equal to `OP_RET` decodes as the terminator and has
size 2. -/
theorem getInstructionSize_invalid (ops : List String) (r : Reader) (ip raw : Nat)
    (hraw : r.m_buffer[ip]? = some raw) (hbyte : raw < 256) :
    (OP_RET ops < raw → raw ≠ 254 →
      getInstructionSize ops r ip = some 255 ∧ (255 : Nat) ≠ 1 ∧ (255 : Nat) ≠ 2) ∧
    (raw = OP_RET ops → getInstructionSize ops r ip = some 2) := by
  unfold getInstructionSize
  rw [getOp_of_byte ops r ip raw hraw]
  have hm : raw % 256 = raw := Nat.mod_eq_of_lt hbyte
  constructor
  · intro h1 h2
    have h3 : ¬ raw < OP_RET ops := by omega
    have h4 : raw ≠ OP_RET ops := by omega
    simp [h2, hm, h3, h4]
  · intro h
    have hm2 : OP_RET ops % 256 = OP_RET ops := by rw [← h]; exact hm
    by_cases h254 : raw = 254
    · simp [h254, hm2]
    · rw [if_neg h254, hm]
      simp [h]

theorem getInstructionSize_invalid_witness :
    getInstructionSize ["A", "B", "C"] { Reader.new with m_buffer := [200, 3] } 0 = some 255 ∧
    getInstructionSize ["A", "B", "C"] { Reader.new with m_buffer := [200, 3] } 1 = some 2 :=
  ⟨((getInstructionSize_invalid ["A", "B", "C"] { Reader.new with m_buffer := [200, 3] } 0 200
      (by decide) (by decide)).1 (by decide) (by decide)).1,
   (getInstructionSize_invalid ["A", "B", "C"] { Reader.new with m_buffer := [200, 3] } 1 3
      (by decide) (by decide)).2 (by decide)⟩

/-! ## One call of `step` -/

theorem step_finish (ops : List String) (r : Reader) (sz : Nat)
    (hsz : getInstructionSize ops r r.m_ip = some sz)
    (hno : r.m_ip + sz < 2 ^ 64) (hge : r.m_buffer.length ≤ r.m_ip + sz) :
    step ops r = some (ExecState.STATE_FINISH, { r with m_ip := r.m_ip + sz }) := by
  have hm : (r.m_ip + sz) % 2 ^ 64 = r.m_ip + sz := Nat.mod_eq_of_lt hno
  simp only [step, getCurrentInstructionSize, hsz, hm]
  rw [if_pos (show r.m_buffer.length ≤ r.m_ip + sz from hge)]

theorem step_land (ops : List String) (r : Reader) (sz op : Nat) (b : Bool)
    (hsz : getInstructionSize ops r r.m_ip = some sz)
    (hno : r.m_ip + sz < 2 ^ 64) (hlt : r.m_ip + sz < r.m_buffer.length)
    (hop : getOp ops r (r.m_ip + sz) = some op)
    (hb : r.m_breakpoints[r.m_ip + sz]? = some b) :
    step ops r =
      some (if b then ExecState.STATE_BREAKPOINT else ExecState.STATE_STOP,
        { r with m_ip := r.m_ip + sz,
                 m_hitcounts :=
                   r.m_hitcounts.set op ((r.m_hitcounts.getD op 0 + 1) % 2 ^ 64) }) := by
  have hm : (r.m_ip + sz) % 2 ^ 64 = r.m_ip + sz := Nat.mod_eq_of_lt hno
  have hop1 : getOp ops { r with m_ip := r.m_ip + sz } (r.m_ip + sz) = some op := hop
  simp only [step, getCurrentInstructionSize, hsz, hm, getCurrentOp, getIp]
  rw [if_neg (show ¬ r.m_buffer.length ≤ r.m_ip + sz from Nat.not_le.mpr hlt)]
  simp only [hop1, atBreakpoint, getIp, hb]
  cases b <;> rfl

theorem typeOk_exReader (ip : Nat) (h : ip < 2 ^ 64) :
    TypeOk { exReader with m_ip := ip } := by
  refine ⟨h, ?_, ?_, ?_, ?_⟩
  · show [0, 1, 254, 7].length < 2 ^ 63
    decide
  · show ∀ b ∈ [0, 1, 254, 7], b < 256
    decide
  · show (List.replicate 256 0).length = 256
    exact List.length_replicate 256 0
  · show ∀ c ∈ List.replicate 256 0, c < 2 ^ 64
    intro c hc
    rw [(List.mem_replicate.mp hc).2]
    decide

/-- C1: from an in-range IP, with `ip1 = ip + getInstructionSize(ip)` still in
range, `step` moves the IP to `ip1`, adds one (as a 64-bit counter) to the hit
counter of `getOp(ip1)`, leaves every other counter, the breakpoint flags and
the buffer as they were, and returns `STATE_BREAKPOINT` when the flag at `ip1`
is set and `STATE_STOP` otherwise. -/
theorem step_advance (ops : List String) (r : Reader) (hty : TypeOk r) (hsized : Sized r)
    (hip : r.m_ip < r.m_buffer.length) :
    ∃ sz, getInstructionSize ops r r.m_ip = some sz ∧
      (r.m_ip + sz < r.m_buffer.length →
        ∃ op c b st r1,
          getOp ops r (r.m_ip + sz) = some op ∧ r.m_hitcounts[op]? = some c ∧
          r.m_breakpoints[r.m_ip + sz]? = some b ∧
          step ops r = some (st, r1) ∧
          r1.m_ip = r.m_ip + sz ∧
          r1.m_hitcounts[op]? = some ((c + 1) % 2 ^ 64) ∧
          (c + 1 < 2 ^ 64 → r1.m_hitcounts[op]? = some (c + 1)) ∧
          (∀ j, j ≠ op → r1.m_hitcounts[j]? = r.m_hitcounts[j]?) ∧
          r1.m_breakpoints = r.m_breakpoints ∧ r1.m_buffer = r.m_buffer ∧
          st = if b then ExecState.STATE_BREAKPOINT else ExecState.STATE_STOP) := by
  obtain ⟨_, hlen, _, hcnt, _⟩ := hty
  obtain ⟨sz, hsz, _⟩ := getInstructionSize_cases ops r r.m_ip hip
  refine ⟨sz, hsz, fun hlt => ?_⟩
  obtain ⟨op, hop, hop256⟩ := getOp_isSome ops r (r.m_ip + sz) hlt
  have hoplen : op < r.m_hitcounts.length := by omega
  have hblen : r.m_ip + sz < r.m_breakpoints.length := by
    unfold Sized at hsized
    omega
  obtain ⟨c, hc⟩ : ∃ c, r.m_hitcounts[op]? = some c :=
    ⟨_, List.getElem?_eq_getElem hoplen⟩
  obtain ⟨b, hb⟩ : ∃ b, r.m_breakpoints[r.m_ip + sz]? = some b :=
    ⟨_, List.getElem?_eq_getElem hblen⟩
  have hgetD : r.m_hitcounts.getD op 0 = c := by
    rw [List.getD_eq_getElem?_getD, hc]
    rfl
  have hstep := step_land ops r sz op b hsz (by omega) hlt hop hb
  rw [hgetD] at hstep
  have hnew : (r.m_hitcounts.set op ((c + 1) % 2 ^ 64))[op]? = some ((c + 1) % 2 ^ 64) :=
    List.getElem?_set_self hoplen
  refine ⟨op, c, b, _, _, hop, hc, hb, hstep, rfl, hnew, ?_, ?_, rfl, rfl, rfl⟩
  · intro hno
    exact hnew.trans (congrArg some (Nat.mod_eq_of_lt hno))
  · intro j hj
    exact List.getElem?_set_ne (Ne.symm hj)

theorem step_advance_witness :
    ∃ sz, getInstructionSize exOps exReader exReader.m_ip = some sz ∧
      (exReader.m_ip + sz < exReader.m_buffer.length →
        ∃ op c b st r1,
          getOp exOps exReader (exReader.m_ip + sz) = some op ∧
          exReader.m_hitcounts[op]? = some c ∧
          exReader.m_breakpoints[exReader.m_ip + sz]? = some b ∧
          step exOps exReader = some (st, r1) ∧
          r1.m_ip = exReader.m_ip + sz ∧
          r1.m_hitcounts[op]? = some ((c + 1) % 2 ^ 64) ∧
          (c + 1 < 2 ^ 64 → r1.m_hitcounts[op]? = some (c + 1)) ∧
          (∀ j, j ≠ op → r1.m_hitcounts[j]? = exReader.m_hitcounts[j]?) ∧
          r1.m_breakpoints = exReader.m_breakpoints ∧ r1.m_buffer = exReader.m_buffer ∧
          st = if b then ExecState.STATE_BREAKPOINT else ExecState.STATE_STOP) :=
  step_advance exOps exReader (typeOk_exReader 0 (by decide)) (by decide) (by decide)

/-- C2: from an in-range IP whose instruction reaches or passes the end of the
buffer, `step` returns `STATE_FINISH`, sets the IP to `ip + size`, changes no
hit counter, and gives the same result whatever the breakpoint flag vector is
(any length, any flag set), so it reads no flag. -/
theorem step_at_end (ops : List String) (r : Reader) (hlen : r.m_buffer.length < 2 ^ 63)
    (hip : r.m_ip < r.m_buffer.length) :
    ∃ sz, getInstructionSize ops r r.m_ip = some sz ∧
      (r.m_buffer.length ≤ r.m_ip + sz →
        step ops r = some (ExecState.STATE_FINISH, { r with m_ip := r.m_ip + sz }) ∧
        ∀ flags : List Bool,
          step ops { r with m_breakpoints := flags } =
            some (ExecState.STATE_FINISH,
              { r with m_ip := r.m_ip + sz, m_breakpoints := flags })) := by
  obtain ⟨sz, hsz, hcases⟩ := getInstructionSize_cases ops r r.m_ip hip
  have hno : r.m_ip + sz < 2 ^ 64 := by omega
  refine ⟨sz, hsz, fun hge => ⟨step_finish ops r sz hsz hno hge, fun flags => ?_⟩⟩
  exact step_finish ops { r with m_breakpoints := flags } sz hsz hno hge

theorem step_at_end_witness :
    step exOps { exReader with m_ip := 2 } =
        some (ExecState.STATE_FINISH, { exReader with m_ip := 4 }) ∧
    step exOps { exReader with m_ip := 2, m_breakpoints := [] } =
        some (ExecState.STATE_FINISH, { exReader with m_ip := 4, m_breakpoints := [] }) := by
  obtain ⟨sz, hsz, h⟩ :=
    step_at_end exOps { exReader with m_ip := 2 } (by decide) (by decide)
  have h2 : sz = 2 := by
    have h3 : getInstructionSize exOps { exReader with m_ip := 2 } 2 = some 2 := by decide
    exact Option.some.inj (hsz.symm.trans h3)
  subst h2
  exact ⟨(h (by decide)).1, (h (by decide)).2 []⟩

/-! ## Sequences of `step` calls -/

theorem step_progress (ops : List String) (r : Reader) (hlen : r.m_buffer.length < 2 ^ 63)
    (hsized : Sized r) (hip : r.m_ip < r.m_buffer.length) :
    ∃ st r1, step ops r = some (st, r1) ∧ r.m_ip < r1.m_ip ∧
      r1.m_buffer = r.m_buffer ∧ r1.m_breakpoints = r.m_breakpoints ∧
      (st = ExecState.STATE_FINISH → r.m_buffer.length ≤ r1.m_ip) ∧
      (st ≠ ExecState.STATE_FINISH → r1.m_ip < r.m_buffer.length) ∧
      (st = ExecState.STATE_BREAKPOINT → r1.m_breakpoints[r1.m_ip]? = some true) ∧
      (st = ExecState.STATE_STOP → r1.m_breakpoints[r1.m_ip]? = some false) := by
  obtain ⟨sz, hsz, hcases⟩ := getInstructionSize_cases ops r r.m_ip hip
  have hno : r.m_ip + sz < 2 ^ 64 := by omega
  have hpos : r.m_ip < r.m_ip + sz := by omega
  by_cases hge : r.m_buffer.length ≤ r.m_ip + sz
  · refine ⟨_, _, step_finish ops r sz hsz hno hge, hpos, rfl, rfl, fun _ => hge, ?_, ?_, ?_⟩
    · intro h
      exact absurd rfl h
    · intro h
      cases h
    · intro h
      cases h
  · have hlt : r.m_ip + sz < r.m_buffer.length := Nat.lt_of_not_le hge
    obtain ⟨op, hop, _⟩ := getOp_isSome ops r (r.m_ip + sz) hlt
    have hblen : r.m_ip + sz < r.m_breakpoints.length := by
      unfold Sized at hsized
      omega
    obtain ⟨b, hb⟩ : ∃ b, r.m_breakpoints[r.m_ip + sz]? = some b :=
      ⟨_, List.getElem?_eq_getElem hblen⟩
    refine ⟨_, _, step_land ops r sz op b hsz hno hlt hop hb, hpos, rfl, rfl, ?_, fun _ => hlt,
      ?_, ?_⟩
    · intro h
      cases b <;> simp at h
    · intro h
      cases b
      · simp at h
      · exact hb
    · intro h
      cases b
      · exact hb
      · simp at h

theorem stepStops_succ_of_step (ops : List String) (n : Nat) (r r1 : Reader)
    (h : step ops r = some (ExecState.STATE_STOP, r1)) :
    stepStops ops (n + 1) r = stepStops ops n r1 := by
  simp [stepStops, h]

theorem stepStops_succ_some (ops : List String) (n : Nat) (r rk : Reader)
    (h : stepStops ops (n + 1) r = some rk) :
    ∃ r1, step ops r = some (ExecState.STATE_STOP, r1) ∧ stepStops ops n r1 = some rk := by
  unfold stepStops at h
  split at h
  · next r1 heq => exact ⟨r1, heq, h⟩
  · cases h

theorem stepStops_inv (ops : List String) (n : Nat) :
    ∀ r rk : Reader, r.m_buffer.length < 2 ^ 63 → Sized r → r.m_ip < r.m_buffer.length →
      stepStops ops n r = some rk →
      rk.m_buffer = r.m_buffer ∧ rk.m_breakpoints = r.m_breakpoints ∧
        r.m_ip + n ≤ rk.m_ip ∧ rk.m_ip < r.m_buffer.length := by
  induction n with
  | zero =>
    intro r rk _ _ hip h
    have hrk : r = rk := Option.some.inj h
    subst hrk
    exact ⟨rfl, rfl, Nat.le_refl _, hip⟩
  | succ n ih =>
    intro r rk hlen hsized hip h
    obtain ⟨r1, hstep, hrest⟩ := stepStops_succ_some ops n r rk h
    obtain ⟨st, r1x, hstep1, hlt, hbuf, hbp, _, hin, _, _⟩ := step_progress ops r hlen hsized hip
    rw [hstep] at hstep1
    have hst : ExecState.STATE_STOP = st := (Prod.mk.inj (Option.some.inj hstep1)).1
    have hr1 : r1 = r1x := (Prod.mk.inj (Option.some.inj hstep1)).2
    subst hst
    subst hr1
    have hin1 : r1.m_ip < r.m_buffer.length := hin (by decide)
    have hsized1 : Sized r1 := by
      unfold Sized at *
      rw [hbuf, hbp]
      exact hsized
    obtain ⟨h1, h2, h3, h4⟩ := ih r1 rk (by rw [hbuf]; exact hlen) hsized1
      (by rw [hbuf]; exact hin1) hrest
    refine ⟨h1.trans hbuf, h2.trans hbp, by omega, ?_⟩
    rw [hbuf] at h4
    exact h4

theorem stepStops_succ_last (ops : List String) (n : Nat) :
    ∀ r rk : Reader, stepStops ops (n + 1) r = some rk →
      ∃ rn, stepStops ops n r = some rn ∧ step ops rn = some (ExecState.STATE_STOP, rk) := by
  induction n with
  | zero =>
    intro r rk h
    obtain ⟨r1, hstep, hrest⟩ := stepStops_succ_some ops 0 r rk h
    have hrk : r1 = rk := Option.some.inj hrest
    subst hrk
    exact ⟨r, rfl, hstep⟩
  | succ n ih =>
    intro r rk h
    obtain ⟨r1, hstep, hrest⟩ := stepStops_succ_some ops (n + 1) r rk h
    obtain ⟨rn, hrn, hlast⟩ := ih r1 rk hrest
    exact ⟨rn, (stepStops_succ_of_step ops n r r1 hstep).trans hrn, hlast⟩

/-! ## The loop of `cont` -/

theorem cont_succ_of_stop (ops : List String) (k : Nat) (r r1 : Reader)
    (h : step ops r = some (ExecState.STATE_STOP, r1)) :
    cont ops (k + 1) r = cont ops k r1 := by
  simp [cont, h]

theorem cont_succ_of_other (ops : List String) (k : Nat) (r r1 : Reader) (st : ExecState)
    (h : step ops r = some (st, r1)) (hst : st ≠ ExecState.STATE_STOP) :
    cont ops (k + 1) r = Outcome.ret st r1 := by
  cases st
  · simp [cont, h]
  · exact absurd rfl hst
  · simp [cont, h]

theorem cont_run (ops : List String) (d : Nat) :
    ∀ r : Reader, r.m_buffer.length < 2 ^ 63 → Sized r → r.m_ip < r.m_buffer.length →
      r.m_buffer.length - r.m_ip ≤ d →
      ∃ n rn st r1, n + 1 ≤ r.m_buffer.length - r.m_ip ∧
        stepStops ops n r = some rn ∧ step ops rn = some (st, r1) ∧
        st ≠ ExecState.STATE_STOP ∧
        (∀ fuel, n + 1 ≤ fuel → cont ops fuel r = Outcome.ret st r1) ∧
        (∀ fuel, fuel ≤ n → cont ops fuel r = Outcome.timeout) := by
  induction d with
  | zero =>
    intro r _ _ hip hd
    omega
  | succ d ih =>
    intro r hlen hsized hip hd
    obtain ⟨st, r1, hstep, hlt, hbuf, hbp, _, hin, _, _⟩ := step_progress ops r hlen hsized hip
    by_cases hst : st = ExecState.STATE_STOP
    · subst hst
      have hin1 : r1.m_ip < r.m_buffer.length := hin (by decide)
      have hsized1 : Sized r1 := by
        unfold Sized at *
        rw [hbuf, hbp]
        exact hsized
      obtain ⟨n, rn, st2, r2, hn, hstops, hlast, hst2, hret, htime⟩ :=
        ih r1 (by rw [hbuf]; exact hlen) hsized1 (by rw [hbuf]; exact hin1)
          (by rw [hbuf]; omega)
      rw [hbuf] at hn
      refine ⟨n + 1, rn, st2, r2, by omega,
        (stepStops_succ_of_step ops n r r1 hstep).trans hstops, hlast, hst2, ?_, ?_⟩
      · intro fuel hfuel
        obtain ⟨k, rfl⟩ : ∃ k, fuel = k + 1 := ⟨fuel - 1, by omega⟩
        rw [cont_succ_of_stop ops k r r1 hstep]
        exact hret k (by omega)
      · intro fuel hfuel
        cases fuel with
        | zero => rfl
        | succ k =>
          rw [cont_succ_of_stop ops k r r1 hstep]
          exact htime k (by omega)
    · refine ⟨0, r, st, r1, by omega, rfl, hstep, hst, ?_, ?_⟩
      · intro fuel hfuel
        obtain ⟨k, rfl⟩ : ∃ k, fuel = k + 1 := ⟨fuel - 1, by omega⟩
        exact cont_succ_of_other ops k r r1 st hstep hst
      · intro fuel hfuel
        have h0 : fuel = 0 := by omega
        subst h0
        rfl

/-- C6: from an in-range IP `cont` terminates: it makes `n + 1` calls of
`step` with `n + 1 ≤ N - ip`, the first `n` return `STATE_STOP` and each
strictly increases the IP, and it returns the result of the last one, which is
`STATE_FINISH` with the final IP at or after the end, or `STATE_BREAKPOINT`
with the final IP in range and its breakpoint flag set; it never returns
`STATE_STOP`. -/
theorem cont_terminates (ops : List String) (r : Reader)
    (hlen : r.m_buffer.length < 2 ^ 63) (hsized : Sized r)
    (hip : r.m_ip < r.m_buffer.length) :
    ∃ n rn st r1, n + 1 ≤ r.m_buffer.length - r.m_ip ∧
      cont ops (r.m_buffer.length - r.m_ip) r = Outcome.ret st r1 ∧
      (∀ fuel, n + 1 ≤ fuel → cont ops fuel r = Outcome.ret st r1) ∧
      (∀ fuel, fuel ≤ n → cont ops fuel r = Outcome.timeout) ∧
      stepStops ops n r = some rn ∧ step ops rn = some (st, r1) ∧
      (∀ k rk rk1, stepStops ops k r = some rk → stepStops ops (k + 1) r = some rk1 →
        rk.m_ip < rk1.m_ip) ∧
      rn.m_ip < r1.m_ip ∧
      (st = ExecState.STATE_BREAKPOINT ∨ st = ExecState.STATE_FINISH) ∧
      (st = ExecState.STATE_FINISH → r.m_buffer.length ≤ r1.m_ip) ∧
      (st = ExecState.STATE_BREAKPOINT →
        r1.m_ip < r.m_buffer.length ∧ r1.m_breakpoints[r1.m_ip]? = some true) := by
  obtain ⟨n, rn, st, r1, hn, hstops, hlast, hst, hret, htime⟩ :=
    cont_run ops (r.m_buffer.length - r.m_ip) r hlen hsized hip (Nat.le_refl _)
  obtain ⟨hbufn, hbpn, _, hipn⟩ := stepStops_inv ops n r rn hlen hsized hip hstops
  have hsizedn : Sized rn := by
    unfold Sized at *
    rw [hbufn, hbpn]
    exact hsized
  obtain ⟨st2, r2, hstep2, hlt2, _, _, hfin, hin, hbreak, _⟩ :=
    step_progress ops rn (by rw [hbufn]; exact hlen) hsizedn (by rw [hbufn]; exact hipn)
  rw [hlast] at hstep2
  have e1 : st = st2 := (Prod.mk.inj (Option.some.inj hstep2)).1
  have e2 : r1 = r2 := (Prod.mk.inj (Option.some.inj hstep2)).2
  subst e1
  subst e2
  rw [hbufn] at hfin hin
  refine ⟨n, rn, st, r1, hn, hret _ hn, hret, htime, hstops, hlast, ?_, hlt2, ?_, hfin, ?_⟩
  · intro k rk rk1 hk hk1
    obtain ⟨rk2, hk2, hstepk⟩ := stepStops_succ_last ops k r rk1 hk1
    rw [hk] at hk2
    have e3 : rk = rk2 := Option.some.inj hk2
    subst e3
    obtain ⟨hbufk, hbpk, _, hipk⟩ := stepStops_inv ops k r rk hlen hsized hip hk
    have hsizedk : Sized rk := by
      unfold Sized at *
      rw [hbufk, hbpk]
      exact hsized
    obtain ⟨st3, r3, hstep3, hlt3, _⟩ :=
      step_progress ops rk (by rw [hbufk]; exact hlen) hsizedk (by rw [hbufk]; exact hipk)
    rw [hstepk] at hstep3
    have e4 : rk1 = r3 := (Prod.mk.inj (Option.some.inj hstep3)).2
    subst e4
    exact hlt3
  · cases st
    · exact Or.inl rfl
    · exact absurd rfl hst
    · exact Or.inr rfl
  · intro hb
    exact ⟨hin (by rw [hb]; decide), hbreak hb⟩

theorem cont_terminates_witness :
    ∃ n rn st r1, n + 1 ≤ exReader.m_buffer.length - exReader.m_ip ∧
      cont exOps (exReader.m_buffer.length - exReader.m_ip) exReader = Outcome.ret st r1 ∧
      (∀ fuel, n + 1 ≤ fuel → cont exOps fuel exReader = Outcome.ret st r1) ∧
      (∀ fuel, fuel ≤ n → cont exOps fuel exReader = Outcome.timeout) ∧
      stepStops exOps n exReader = some rn ∧ step exOps rn = some (st, r1) ∧
      (∀ k rk rk1, stepStops exOps k exReader = some rk →
        stepStops exOps (k + 1) exReader = some rk1 → rk.m_ip < rk1.m_ip) ∧
      rn.m_ip < r1.m_ip ∧
      (st = ExecState.STATE_BREAKPOINT ∨ st = ExecState.STATE_FINISH) ∧
      (st = ExecState.STATE_FINISH → exReader.m_buffer.length ≤ r1.m_ip) ∧
      (st = ExecState.STATE_BREAKPOINT →
        r1.m_ip < exReader.m_buffer.length ∧ r1.m_breakpoints[r1.m_ip]? = some true) :=
  cont_terminates exOps exReader (by decide) (by decide) (by decide)

/-! ## The loop of `finish` -/

theorem finish_of_terminator (ops : List String) (fuel : Nat) (r : Reader)
    (h : getCurrentOp ops r = some (OP_RET ops)) :
    finish ops fuel r = Outcome.ret ExecState.STATE_STOP r := by
  cases fuel <;> simp [finish, h]

theorem finish_zero_of_other (ops : List String) (r : Reader) (op : Nat)
    (h : getCurrentOp ops r = some op) (hne : op ≠ OP_RET ops) :
    finish ops 0 r = Outcome.timeout := by
  simp [finish, h, hne]

theorem finish_succ_of_stop (ops : List String) (k : Nat) (r r1 : Reader) (op : Nat)
    (h : getCurrentOp ops r = some op) (hne : op ≠ OP_RET ops)
    (hstep : step ops r = some (ExecState.STATE_STOP, r1)) :
    finish ops (k + 1) r = finish ops k r1 := by
  rw [finish]
  simp [h, hne, hstep]

theorem finish_succ_of_other (ops : List String) (k : Nat) (r r1 : Reader) (op : Nat)
    (st : ExecState) (h : getCurrentOp ops r = some op) (hne : op ≠ OP_RET ops)
    (hstep : step ops r = some (st, r1)) (hst : st ≠ ExecState.STATE_STOP) :
    finish ops (k + 1) r = Outcome.ret st r1 := by
  rw [finish]
  cases st
  · simp [h, hne, hstep]
  · exact absurd rfl hst
  · simp [h, hne, hstep]

theorem finish_run (ops : List String) (d : Nat) :
    ∀ r : Reader, r.m_buffer.length < 2 ^ 63 → Sized r → r.m_ip < r.m_buffer.length →
      r.m_buffer.length - r.m_ip ≤ d →
      ∃ n st r1, n ≤ r.m_buffer.length - r.m_ip ∧
        (∀ fuel, n ≤ fuel → finish ops fuel r = Outcome.ret st r1) ∧
        (∀ fuel, fuel < n → finish ops fuel r = Outcome.timeout) ∧
        ((st = ExecState.STATE_STOP ∧ stepStops ops n r = some r1 ∧
            getCurrentOp ops r1 = some (OP_RET ops) ∧
            ∀ k rk, k < n → stepStops ops k r = some rk →
              getCurrentOp ops rk ≠ some (OP_RET ops)) ∨
          (st ≠ ExecState.STATE_STOP ∧ ∃ m rm, n = m + 1 ∧ stepStops ops m r = some rm ∧
            step ops rm = some (st, r1) ∧
            ∀ k rk, k ≤ m → stepStops ops k r = some rk →
              getCurrentOp ops rk ≠ some (OP_RET ops))) := by
  induction d with
  | zero =>
    intro r _ _ hip hd
    omega
  | succ d ih =>
    intro r hlen hsized hip hd
    obtain ⟨op, hop, _⟩ := getOp_isSome ops r r.m_ip hip
    have hcur : getCurrentOp ops r = some op := hop
    by_cases hterm : op = OP_RET ops
    · subst hterm
      refine ⟨0, ExecState.STATE_STOP, r, Nat.zero_le _,
        fun fuel _ => finish_of_terminator ops fuel r hcur, ?_, Or.inl ⟨rfl, rfl, hcur, ?_⟩⟩
      · intro fuel hfuel
        omega
      · intro k rk hk
        omega
    · have hcurne : getCurrentOp ops r ≠ some (OP_RET ops) := by
        rw [hcur]
        intro h
        exact hterm (Option.some.inj h)
      obtain ⟨st, r1, hstep, hlt, hbuf, hbp, _, hin, _, _⟩ :=
        step_progress ops r hlen hsized hip
      by_cases hst : st = ExecState.STATE_STOP
      · subst hst
        have hin1 : r1.m_ip < r.m_buffer.length := hin (by decide)
        have hsized1 : Sized r1 := by
          unfold Sized at *
          rw [hbuf, hbp]
          exact hsized
        obtain ⟨n, st2, r2, hn, hret, htime, hcase⟩ :=
          ih r1 (by rw [hbuf]; exact hlen) hsized1 (by rw [hbuf]; exact hin1)
            (by rw [hbuf]; omega)
        rw [hbuf] at hn
        have hshift : ∀ k, stepStops ops (k + 1) r = stepStops ops k r1 :=
          fun k => stepStops_succ_of_step ops k r r1 hstep
        refine ⟨n + 1, st2, r2, by omega, ?_, ?_, ?_⟩
        · intro fuel hfuel
          obtain ⟨k, rfl⟩ : ∃ k, fuel = k + 1 := ⟨fuel - 1, by omega⟩
          rw [finish_succ_of_stop ops k r r1 op hcur hterm hstep]
          exact hret k (by omega)
        · intro fuel hfuel
          cases fuel with
          | zero => exact finish_zero_of_other ops r op hcur hterm
          | succ k =>
            rw [finish_succ_of_stop ops k r r1 op hcur hterm hstep]
            exact htime k (by omega)
        · rcases hcase with ⟨hs, hstops, hend, hbefore⟩ | ⟨hs, m, rm, hm, hstops, hlast, hbefore⟩
          · refine Or.inl ⟨hs, (hshift n).trans hstops, hend, ?_⟩
            intro k rk hk hrk
            cases k with
            | zero =>
              have e : r = rk := Option.some.inj hrk
              subst e
              exact hcurne
            | succ j =>
              rw [hshift j] at hrk
              exact hbefore j rk (by omega) hrk
          · refine Or.inr ⟨hs, m + 1, rm, by omega, (hshift m).trans hstops, hlast, ?_⟩
            intro k rk hk hrk
            cases k with
            | zero =>
              have e : r = rk := Option.some.inj hrk
              subst e
              exact hcurne
            | succ j =>
              rw [hshift j] at hrk
              exact hbefore j rk (by omega) hrk
      · refine ⟨1, st, r1, by omega, ?_, ?_, Or.inr ⟨hst, 0, r, rfl, rfl, hstep, ?_⟩⟩
        · intro fuel hfuel
          obtain ⟨k, rfl⟩ : ∃ k, fuel = k + 1 := ⟨fuel - 1, by omega⟩
          exact finish_succ_of_other ops k r r1 op st hcur hterm hstep hst
        · intro fuel hfuel
          have h0 : fuel = 0 := by omega
          subst h0
          exact finish_zero_of_other ops r op hcur hterm
        · intro k rk hk hrk
          have h0 : k = 0 := by omega
          subst h0
          have e : r = rk := Option.some.inj hrk
          subst e
          exact hcurne

/-- C7: from an in-range IP that is not on the terminator, `finish` terminates
after `n` calls of `step`, `1 ≤ n ≤ N - ip`.  When it returns `STATE_STOP` the
final IP is in range and on the terminator, and all `n` calls returned
`STATE_STOP`; when it returns another status, that is the result of its last
call of `step`.  In both cases no offset it stood on before held the
terminator. -/
theorem finish_stops_at_first_terminator (ops : List String) (r : Reader)
    (hlen : r.m_buffer.length < 2 ^ 63) (hsized : Sized r)
    (hip : r.m_ip < r.m_buffer.length)
    (hstart : getCurrentOp ops r ≠ some (OP_RET ops)) :
    ∃ n st r1, 1 ≤ n ∧ n ≤ r.m_buffer.length - r.m_ip ∧
      finish ops (r.m_buffer.length - r.m_ip) r = Outcome.ret st r1 ∧
      (∀ fuel, n ≤ fuel → finish ops fuel r = Outcome.ret st r1) ∧
      (∀ fuel, fuel < n → finish ops fuel r = Outcome.timeout) ∧
      (st = ExecState.STATE_STOP →
        r1.m_ip < r1.m_buffer.length ∧ r1.m_buffer = r.m_buffer ∧
        getOp ops r1 r1.m_ip = some (OP_RET ops) ∧
        stepStops ops n r = some r1 ∧
        ∀ k rk, k < n → stepStops ops k r = some rk →
          getCurrentOp ops rk ≠ some (OP_RET ops)) ∧
      (st ≠ ExecState.STATE_STOP →
        ∃ rm, stepStops ops (n - 1) r = some rm ∧ step ops rm = some (st, r1) ∧
          ∀ k rk, k ≤ n - 1 → stepStops ops k r = some rk →
            getCurrentOp ops rk ≠ some (OP_RET ops)) := by
  obtain ⟨n, st, r1, hn, hret, htime, hcase⟩ :=
    finish_run ops (r.m_buffer.length - r.m_ip) r hlen hsized hip (Nat.le_refl _)
  have hpos : 1 ≤ n := by
    rcases hcase with ⟨_, hstops, hend, _⟩ | ⟨_, m, _, hm, _⟩
    · cases n with
      | zero =>
        have e : r = r1 := Option.some.inj hstops
        subst e
        exact absurd hend hstart
      | succ j => omega
    · omega
  refine ⟨n, st, r1, hpos, hn, hret _ hn, hret, htime, ?_, ?_⟩
  · intro hs
    rcases hcase with ⟨_, hstops, hend, hbefore⟩ | ⟨hne, _⟩
    · obtain ⟨hbuf, _, _, hin⟩ := stepStops_inv ops n r r1 hlen hsized hip hstops
      exact ⟨by rw [hbuf]; exact hin, hbuf, hend, hstops, hbefore⟩
    · exact absurd hs hne
  · intro hs
    rcases hcase with ⟨he, _⟩ | ⟨_, m, rm, hm, hstops, hlast, hbefore⟩
    · exact absurd he hs
    · subst hm
      exact ⟨rm, hstops, hlast, hbefore⟩

theorem finish_stops_at_first_terminator_witness :
    ∃ n st r1, 1 ≤ n ∧ n ≤ exReader.m_buffer.length - exReader.m_ip ∧
      finish exOps (exReader.m_buffer.length - exReader.m_ip) exReader = Outcome.ret st r1 ∧
      (∀ fuel, n ≤ fuel → finish exOps fuel exReader = Outcome.ret st r1) ∧
      (∀ fuel, fuel < n → finish exOps fuel exReader = Outcome.timeout) ∧
      (st = ExecState.STATE_STOP →
        r1.m_ip < r1.m_buffer.length ∧ r1.m_buffer = exReader.m_buffer ∧
        getOp exOps r1 r1.m_ip = some (OP_RET exOps) ∧
        stepStops exOps n exReader = some r1 ∧
        ∀ k rk, k < n → stepStops exOps k exReader = some rk →
          getCurrentOp exOps rk ≠ some (OP_RET exOps)) ∧
      (st ≠ ExecState.STATE_STOP →
        ∃ rm, stepStops exOps (n - 1) exReader = some rm ∧
          step exOps rm = some (st, r1) ∧
          ∀ k rk, k ≤ n - 1 → stepStops exOps k exReader = some rk →
            getCurrentOp exOps rk ≠ some (OP_RET exOps)) :=
  finish_stops_at_first_terminator exOps exReader (by decide) (by decide) (by decide)
    (by decide)

/-- C8: when the opcode under the IP is the terminator, `finish` returns
`STATE_STOP` for every budget of `step` calls, zero included, so it calls
`step` not once, and the engine state it leaves is the one it was given: IP,
hit counters, breakpoint flags and buffer. -/
theorem finish_on_terminator (ops : List String) (r : Reader)
    (hcur : getCurrentOp ops r = some (OP_RET ops)) :
    r.m_ip < r.m_buffer.length ∧
    finish ops 0 r = Outcome.ret ExecState.STATE_STOP r ∧
    ∀ fuel, finish ops fuel r = Outcome.ret ExecState.STATE_STOP r := by
  refine ⟨?_, finish_of_terminator ops 0 r hcur, fun fuel => finish_of_terminator ops fuel r hcur⟩
  by_cases h : r.m_ip < r.m_buffer.length
  · exact h
  · have hnone : getCurrentOp ops r = none := getOp_none ops r r.m_ip (Nat.le_of_not_lt h)
    rw [hnone] at hcur
    cases hcur

theorem finish_on_terminator_witness :
    ({ exReader with m_ip := 2 } : Reader).m_ip
        < ({ exReader with m_ip := 2 } : Reader).m_buffer.length ∧
    finish exOps 0 { exReader with m_ip := 2 }
        = Outcome.ret ExecState.STATE_STOP { exReader with m_ip := 2 } ∧
    ∀ fuel, finish exOps fuel { exReader with m_ip := 2 }
        = Outcome.ret ExecState.STATE_STOP { exReader with m_ip := 2 } :=
  finish_on_terminator exOps { exReader with m_ip := 2 } (by decide)

/-- C10: frames nest last-in first-out.  After `push(a)` the IP is `a` and the
token is the old IP `p`; after `push(b)` the IP is `b` and the token is `a`;
popping the second token gives IP `a`, and popping the first gives back `p` and
the whole starting state.  The scoped `ip_stack` objects of `get_ip_frame`,
destroyed in reverse order of creation, do the same. -/
theorem push_pop_nesting (r : Reader) (a b : Nat) :
    (push r a).1 = r.m_ip ∧ (push r a).2.m_ip = a ∧
    (push (push r a).2 b).1 = a ∧ (push (push r a).2 b).2.m_ip = b ∧
    (pop (push (push r a).2 b).2 (push (push r a).2 b).1).m_ip = a ∧
    (pop (pop (push (push r a).2 b).2 (push (push r a).2 b).1) (push r a).1).m_ip = r.m_ip ∧
    pop (pop (push (push r a).2 b).2 (push (push r a).2 b).1) (push r a).1 = r ∧
    (get_ip_frame r a).1.m_ip = r.m_ip ∧ (get_ip_frame r a).2.m_ip = a ∧
    (get_ip_frame (get_ip_frame r a).2 b).1.m_ip = a ∧
    (get_ip_frame (get_ip_frame r a).2 b).2.m_ip = b ∧
    (ip_stack_dtor (get_ip_frame (get_ip_frame r a).2 b).1
      (get_ip_frame (get_ip_frame r a).2 b).2).m_ip = a ∧
    ip_stack_dtor (get_ip_frame r a).1
      (ip_stack_dtor (get_ip_frame (get_ip_frame r a).2 b).1
        (get_ip_frame (get_ip_frame r a).2 b).2) = r := by
  cases r
  exact ⟨rfl, rfl, rfl, rfl, rfl, rfl, rfl, rfl, rfl, rfl, rfl, rfl, rfl⟩

/-! ## A four-byte trace -/

theorem load_new (bytes : List Nat) :
    (load (some (bytes, true)) Reader.new).2 =
      { m_ip := 0, m_buffer := bytes, m_hitcounts := List.replicate 256 0,
        m_breakpoints := List.replicate bytes.length false } := by
  unfold load Reader.new resize
  simp only [List.take_nil, List.nil_append, List.length_nil, Nat.sub_zero]

/-- C9: with at most 254 ordinary opcodes, on the trace `[op0, op1, 254, pad]`
loaded into a fresh engine (IP 0, counters zero, no breakpoint), `cont` makes
three calls of `step` and returns `STATE_FINISH` with IP 4; the counters of
`op1` and of `OP_RET` are 1 and every other counter is 0, so the counter of
`op0` is 0 when `op0` differs from `op1`. -/
theorem cont_four_byte_trace (ops : List String) (op0 op1 pad : Nat)
    (hops : OP_RET ops ≤ 254) (h0 : op0 < OP_RET ops) (h1 : op1 < OP_RET ops) :
    ∃ r1, (∀ fuel, 3 ≤ fuel →
        cont ops fuel (load (some ([op0, op1, 254, pad], true)) Reader.new).2
          = Outcome.ret ExecState.STATE_FINISH r1) ∧
      (∀ fuel, fuel < 3 →
        cont ops fuel (load (some ([op0, op1, 254, pad], true)) Reader.new).2
          = Outcome.timeout) ∧
      r1.m_ip = 4 ∧ r1.m_buffer = [op0, op1, 254, pad] ∧
      r1.m_hitcounts.length = 256 ∧
      r1.m_hitcounts[op1]? = some 1 ∧ r1.m_hitcounts[OP_RET ops]? = some 1 ∧
      (∀ j, j < 256 → j ≠ op1 → j ≠ OP_RET ops → r1.m_hitcounts[j]? = some 0) ∧
      (op0 ≠ op1 → r1.m_hitcounts[op0]? = some 0) := by
  rw [load_new]
  let hc0 : List Nat := List.replicate 256 0
  let hc1 : List Nat := hc0.set op1 1
  let hc2 : List Nat := hc1.set (OP_RET ops) 1
  let bp : List Bool := List.replicate 4 false
  let buf : List Nat := [op0, op1, 254, pad]
  let s0 : Reader := { m_ip := 0, m_buffer := buf, m_hitcounts := hc0, m_breakpoints := bp }
  let s1 : Reader := { m_ip := 1, m_buffer := buf, m_hitcounts := hc1, m_breakpoints := bp }
  let s2 : Reader := { m_ip := 2, m_buffer := buf, m_hitcounts := hc2, m_breakpoints := bp }
  let s3 : Reader := { m_ip := 4, m_buffer := buf, m_hitcounts := hc2, m_breakpoints := bp }
  have hne : op1 ≠ OP_RET ops := by omega
  have hget0 : hc0.getD op1 0 = 0 := by
    simp only [hc0, List.getD_eq_getElem?_getD, List.getElem?_replicate]
    split <;> rfl
  have hget1 : hc1.getD (OP_RET ops) 0 = 0 := by
    simp only [hc1, hc0, List.getD_eq_getElem?_getD, List.getElem?_set_ne hne,
      List.getElem?_replicate]
    split <;> rfl
  have size0 : getInstructionSize ops s0 0 = some 1 :=
    (getInstructionSize_byte_cases ops s0 0 op0 hops rfl).1 h0
  have size1 : getInstructionSize ops s1 1 = some 1 :=
    (getInstructionSize_byte_cases ops s1 1 op1 hops rfl).1 h1
  have size2 : getInstructionSize ops s2 2 = some 2 :=
    (getInstructionSize_byte_cases ops s2 2 254 hops rfl).2 rfl
  have op_1 : getOp ops s0 1 = some op1 :=
    (getOp_byte_cases ops s0 1 op1 (by omega) rfl (by omega)).2 (by omega)
  have op_2 : getOp ops s1 2 = some (OP_RET ops) :=
    (getOp_byte_cases ops s1 2 254 (by omega) rfl (by omega)).1 rfl
  have step0 : step ops s0 = some (ExecState.STATE_STOP, s1) := by
    have h := step_land ops s0 1 op1 false size0 (show 0 + 1 < 2 ^ 64 by decide)
      (show 0 + 1 < 4 by decide) op_1 rfl
    rw [h]
    simp only [s0, s1, hc1, hget0]
    rfl
  have step1 : step ops s1 = some (ExecState.STATE_STOP, s2) := by
    have h := step_land ops s1 1 (OP_RET ops) false size1 (show 1 + 1 < 2 ^ 64 by decide)
      (show 1 + 1 < 4 by decide) op_2 rfl
    rw [h]
    simp only [s1, s2, hc2, hget1]
    rfl
  have step2 : step ops s2 = some (ExecState.STATE_FINISH, s3) :=
    step_finish ops s2 2 size2 (show 2 + 2 < 2 ^ 64 by decide) (show 4 ≤ 2 + 2 by decide)
  have hlen0 : hc0.length = 256 := List.length_replicate 256 0
  have hlen1 : hc1.length = 256 := by rw [List.length_set]; exact hlen0
  have hlen2 : hc2.length = 256 := by rw [List.length_set]; exact hlen1
  have hothers : ∀ j, j < 256 → j ≠ op1 → j ≠ OP_RET ops → hc2[j]? = some 0 := by
    intro j hj hj1 hj2
    simp only [hc2, hc1, hc0, List.getElem?_set_ne (Ne.symm hj2),
      List.getElem?_set_ne (Ne.symm hj1), List.getElem?_replicate, if_pos hj]
  refine ⟨s3, ?_, ?_, rfl, rfl, hlen2, ?_, ?_, hothers, ?_⟩
  · intro fuel hfuel
    obtain ⟨k, rfl⟩ : ∃ k, fuel = k + 1 + 1 + 1 := ⟨fuel - 3, by omega⟩
    change cont ops (k + 1 + 1 + 1) s0 = Outcome.ret ExecState.STATE_FINISH s3
    rw [cont_succ_of_stop ops (k + 1 + 1) s0 s1 step0,
      cont_succ_of_stop ops (k + 1) s1 s2 step1]
    exact cont_succ_of_other ops k s2 s3 _ step2 (by decide)
  · intro fuel hfuel
    have hcases : fuel = 0 ∨ fuel = 1 ∨ fuel = 2 := by omega
    rcases hcases with rfl | rfl | rfl
    · rfl
    · change cont ops (0 + 1) s0 = Outcome.timeout
      rw [cont_succ_of_stop ops 0 s0 s1 step0]
      rfl
    · change cont ops (0 + 1 + 1) s0 = Outcome.timeout
      rw [cont_succ_of_stop ops (0 + 1) s0 s1 step0, cont_succ_of_stop ops 0 s1 s2 step1]
      rfl
  · show hc2[op1]? = some 1
    simp only [hc2, List.getElem?_set_ne (Ne.symm hne)]
    exact List.getElem?_set_self (by rw [hlen0]; omega)
  · show hc2[OP_RET ops]? = some 1
    exact List.getElem?_set_self (by rw [hlen1]; omega)
  · intro h01
    exact hothers op0 (by omega) h01 (by omega)

theorem cont_four_byte_trace_witness :
    ∃ r1, (∀ fuel, 3 ≤ fuel →
        cont exOps fuel (load (some ([0, 1, 254, 7], true)) Reader.new).2
          = Outcome.ret ExecState.STATE_FINISH r1) ∧
      (∀ fuel, fuel < 3 →
        cont exOps fuel (load (some ([0, 1, 254, 7], true)) Reader.new).2
          = Outcome.timeout) ∧
      r1.m_ip = 4 ∧ r1.m_buffer = [0, 1, 254, 7] ∧
      r1.m_hitcounts.length = 256 ∧
      r1.m_hitcounts[1]? = some 1 ∧ r1.m_hitcounts[OP_RET exOps]? = some 1 ∧
      (∀ j, j < 256 → j ≠ 1 → j ≠ OP_RET exOps → r1.m_hitcounts[j]? = some 0) ∧
      (0 ≠ 1 → r1.m_hitcounts[0]? = some 0) :=
  cont_four_byte_trace exOps 0 1 7 (by decide) (by decide) (by decide)

/-! ## Frames, continued -/

/-- C11: `push(newIp)` returns the IP current before the call, sets the IP to
`newIp` and changes nothing else; `pop` of the returned value gives back the
state before the push, equal in every field.  `jump`, `push` and `pop` leave
the hit counters, the breakpoint flags and the buffer as they were, for every
offset, in range or not. -/
theorem push_pop_roundtrip (r : Reader) (newIp ip : Nat) :
    (push r newIp).1 = r.m_ip ∧ (push r newIp).2 = { r with m_ip := newIp } ∧
    pop (push r newIp).2 (push r newIp).1 = r ∧
    ((jump r ip).m_ip = ip ∧ (jump r ip).m_hitcounts = r.m_hitcounts ∧
      (jump r ip).m_breakpoints = r.m_breakpoints ∧ (jump r ip).m_buffer = r.m_buffer) ∧
    ((push r ip).2.m_hitcounts = r.m_hitcounts ∧
      (push r ip).2.m_breakpoints = r.m_breakpoints ∧ (push r ip).2.m_buffer = r.m_buffer) ∧
    ((pop r ip).m_ip = ip ∧ (pop r ip).m_hitcounts = r.m_hitcounts ∧
      (pop r ip).m_breakpoints = r.m_breakpoints ∧ (pop r ip).m_buffer = r.m_buffer) := by
  cases r
  exact ⟨rfl, rfl, rfl, ⟨rfl, rfl, rfl, rfl⟩, ⟨rfl, rfl, rfl⟩, ⟨rfl, rfl, rfl, rfl⟩⟩

/-! ## Stepping over an invalid byte -/

theorem step_ip (ops : List String) (r r1 : Reader) (sz : Nat) (st : ExecState)
    (hsz : getInstructionSize ops r r.m_ip = some sz) (hno : r.m_ip + sz < 2 ^ 64)
    (h : step ops r = some (st, r1)) : r1.m_ip = r.m_ip + sz := by
  have hm : (r.m_ip + sz) % 2 ^ 64 = r.m_ip + sz := Nat.mod_eq_of_lt hno
  simp only [step, getCurrentInstructionSize, hsz, hm] at h
  split at h
  · have e := (Prod.mk.inj (Option.some.inj h)).2
    rw [← e]
  · split at h
    · cases h
    · split at h
      · cases h
      · have e := (Prod.mk.inj (Option.some.inj h)).2
        rw [← e]
      · have e := (Prod.mk.inj (Option.some.inj h)).2
        rw [← e]

/-- C12, as stated, fails: in a trace of 300 bytes whose first byte 200 is
invalid, `step` from offset 0 adds the marker 255 as a size, lands on the
in-range offset 255 and returns `STATE_STOP`, not `STATE_FINISH`. -/
theorem step_invalid_lands_in_range_counterexample :
    getInstructionSize exOps (load (some (200 :: List.replicate 299 0, true)) Reader.new).2 0
      = some 255 ∧
    (step exOps (load (some (200 :: List.replicate 299 0, true)) Reader.new).2).map
      (fun p => (p.1, p.2.m_ip)) = some (ExecState.STATE_STOP, 255) ∧
    255 < (load (some (200 :: List.replicate 299 0, true)) Reader.new).2.m_buffer.length := by
  set_option maxRecDepth 100000 in decide

/-- C12, amended: from an in-range offset whose size is the invalid marker,
`step` adds exactly 255 to the IP and the sum does not wrap around; when the
buffer ends at or before `ip + 255` the IP is left at or after the end and
`step` returns `STATE_FINISH`. -/
theorem step_invalid (ops : List String) (r : Reader) (hlen : r.m_buffer.length < 2 ^ 63)
    (hip : r.m_ip < r.m_buffer.length)
    (hinv : getInstructionSize ops r r.m_ip = some 255) :
    r.m_ip + 255 < 2 ^ 64 ∧
    (∀ st r1, step ops r = some (st, r1) → r1.m_ip = r.m_ip + 255) ∧
    (r.m_buffer.length ≤ r.m_ip + 255 →
      step ops r = some (ExecState.STATE_FINISH, { r with m_ip := r.m_ip + 255 })) := by
  have hno : r.m_ip + 255 < 2 ^ 64 := by omega
  exact ⟨hno, fun st r1 h => step_ip ops r r1 255 st hinv hno h,
    fun hge => step_finish ops r 255 hinv hno hge⟩

theorem step_invalid_witness :
    ({ exReader with m_ip := 3 } : Reader).m_ip + 255 < 2 ^ 64 ∧
    (∀ st r1, step exOps { exReader with m_ip := 3 } = some (st, r1) →
      r1.m_ip = ({ exReader with m_ip := 3 } : Reader).m_ip + 255) ∧
    (({ exReader with m_ip := 3 } : Reader).m_buffer.length
        ≤ ({ exReader with m_ip := 3 } : Reader).m_ip + 255 →
      step exOps { exReader with m_ip := 3 } =
        some (ExecState.STATE_FINISH,
          { ({ exReader with m_ip := 3 } : Reader) with
            m_ip := ({ exReader with m_ip := 3 } : Reader).m_ip + 255 })) :=
  step_invalid exOps { exReader with m_ip := 3 } (by decide) (by decide) (by decide)

/-! ## The template printer -/

theorem formatTrace_percent_cons (ipText opText : String) (d : Char) (rest : List Char) :
    formatTrace ipText opText ('%' :: d :: rest) =
      specDirective ipText opText d ++ formatTrace ipText opText rest := by
  rw [formatTrace]
  simp

theorem formatTrace_percent_end (ipText opText : String) :
    formatTrace ipText opText ['%'] = "" := by
  simp [formatTrace]

theorem formatTrace_backslash_cons (ipText opText : String) (d : Char) (rest : List Char) :
    formatTrace ipText opText ('\\' :: d :: rest) =
      specEscape d ++ formatTrace ipText opText rest := by
  rw [formatTrace]
  simp

theorem formatTrace_backslash_end (ipText opText : String) :
    formatTrace ipText opText ['\\'] = "" := by
  simp [formatTrace]

theorem formatTrace_plain (ipText opText : String) (c : Char) (rest : List Char)
    (h1 : c ≠ '%') (h2 : c ≠ '\\') :
    formatTrace ipText opText (c :: rest) =
      String.singleton c ++ formatTrace ipText opText rest := by
  cases rest <;> simp [formatTrace, h1, h2]

theorem usesOp_percent_cons (d : Char) (rest : List Char) :
    usesOp ('%' :: d :: rest) = (decide (d = 'o') || usesOp rest) := by
  simp [usesOp]

theorem usesOp_backslash_cons (d : Char) (rest : List Char) :
    usesOp ('\\' :: d :: rest) = usesOp rest := by
  simp [usesOp]

theorem usesOp_plain (c : Char) (rest : List Char) (h1 : c ≠ '%') (h2 : c ≠ '\\') :
    usesOp (c :: rest) = usesOp rest := by
  cases rest <;> simp [usesOp, h1, h2]

theorem printLoop_scan (ops : List String) (r : Reader) (fmt : List Char) (opText : String) :
    ∀ fuel i out, fmt.length - i ≤ fuel →
      (printOp ops r = some opText ∨ usesOp (fmt.drop i) = false) →
      printLoop ops r fmt fuel i out =
        Emit.text (out ++ formatTrace (toString r.m_ip) opText (fmt.drop i)) := by
  intro fuel
  induction fuel with
  | zero =>
    intro i out hle _
    have hi : ¬ i < fmt.length := by omega
    have hdrop : fmt.drop i = [] := List.drop_eq_nil_of_le (by omega)
    simp [printLoop, hi, hdrop, formatTrace]
  | succ fuel ih =>
    intro i out hle hop
    by_cases h : i < fmt.length
    · have hdrop : fmt.drop i = fmt[i] :: fmt.drop (i + 1) := List.drop_eq_getElem_cons h
      rw [hdrop] at hop
      rw [hdrop, printLoop, dif_pos h]
      by_cases h1 : i < fmt.length - 1
      · have h1x : i + 1 < fmt.length := by omega
        have hdrop1 : fmt.drop (i + 1) = fmt[i + 1] :: fmt.drop (i + 2) :=
          List.drop_eq_getElem_cons h1x
        rw [hdrop1] at hop
        rw [hdrop1]
        by_cases hc : fmt[i] = '%'
        · have hR : formatTrace (toString r.m_ip) opText (fmt[i] :: fmt[i + 1] :: fmt.drop (i + 2))
              = specDirective (toString r.m_ip) opText fmt[i + 1]
                ++ formatTrace (toString r.m_ip) opText (fmt.drop (i + 2)) := by
            rw [hc]
            exact formatTrace_percent_cons _ _ _ _
          have hU : usesOp (fmt[i] :: fmt[i + 1] :: fmt.drop (i + 2))
              = (decide (fmt[i + 1] = 'o') || usesOp (fmt.drop (i + 2))) := by
            rw [hc]
            exact usesOp_percent_cons _ _
          rw [hU] at hop
          rw [hR, if_pos hc, dif_pos h1]
          by_cases hd1 : fmt[i + 1] = 'i'
          · have hop2 : printOp ops r = some opText ∨ usesOp (fmt.drop (i + 2)) = false := by
              rcases hop with hl | hr
              · exact Or.inl hl
              · exact Or.inr (by simpa [hd1] using hr)
            have hS : specDirective (toString r.m_ip) opText fmt[i + 1] = toString r.m_ip := by
              simp [specDirective, hd1]
            rw [if_pos hd1, ih (i + 2) _ (by omega) hop2, String.append_assoc, hS]
          · by_cases hd2 : fmt[i + 1] = 'o'
            · have hsome : printOp ops r = some opText := by
                rcases hop with hl | hr
                · exact hl
                · simp [hd2] at hr
              have hS : specDirective (toString r.m_ip) opText fmt[i + 1] = opText := by
                simp [specDirective, hd2]
              rw [if_neg hd1, if_pos hd2, hsome]
              simp only []
              rw [ih (i + 2) _ (by omega) (Or.inl hsome), String.append_assoc, hS]
            · have hop2 : printOp ops r = some opText ∨ usesOp (fmt.drop (i + 2)) = false := by
                rcases hop with hl | hr
                · exact Or.inl hl
                · exact Or.inr (by simpa [hd2] using hr)
              by_cases hd3 : fmt[i + 1] = '%'
              · have hS : specDirective (toString r.m_ip) opText fmt[i + 1] = "%" := by
                  simp [specDirective, hd3]
                rw [if_neg hd1, if_neg hd2, if_pos hd3, ih (i + 2) _ (by omega) hop2,
                  String.append_assoc, hS]
              · have hS : specDirective (toString r.m_ip) opText fmt[i + 1] = "" := by
                  simp [specDirective, hd1, hd2, hd3]
                rw [if_neg hd1, if_neg hd2, if_neg hd3, ih (i + 2) _ (by omega) hop2, hS,
                  String.empty_append]
        · by_cases hb : fmt[i] = '\\'
          · have hR : formatTrace (toString r.m_ip) opText
                (fmt[i] :: fmt[i + 1] :: fmt.drop (i + 2))
                = specEscape fmt[i + 1]
                  ++ formatTrace (toString r.m_ip) opText (fmt.drop (i + 2)) := by
              rw [hb]
              exact formatTrace_backslash_cons _ _ _ _
            have hU : usesOp (fmt[i] :: fmt[i + 1] :: fmt.drop (i + 2))
                = usesOp (fmt.drop (i + 2)) := by
              rw [hb]
              exact usesOp_backslash_cons _ _
            rw [hU] at hop
            rw [hR, if_neg hc, if_pos hb, dif_pos h1]
            by_cases hd1 : fmt[i + 1] = 'n'
            · have hS : specEscape fmt[i + 1] = "\n" := by simp [specEscape, hd1]
              rw [if_pos hd1, ih (i + 2) _ (by omega) hop, String.append_assoc, hS]
            · by_cases hd2 : fmt[i + 1] = 't'
              · have hS : specEscape fmt[i + 1] = "\t" := by simp [specEscape, hd2]
                rw [if_neg hd1, if_pos hd2, ih (i + 2) _ (by omega) hop, String.append_assoc, hS]
              · by_cases hd3 : fmt[i + 1] = '\\'
                · have hS : specEscape fmt[i + 1] = "\\" := by simp [specEscape, hd3]
                  rw [if_neg hd1, if_neg hd2, if_pos hd3, ih (i + 2) _ (by omega) hop,
                    String.append_assoc, hS]
                · have hS : specEscape fmt[i + 1] = "" := by
                    simp [specEscape, hd1, hd2, hd3]
                  rw [if_neg hd1, if_neg hd2, if_neg hd3, ih (i + 2) _ (by omega) hop, hS,
                    String.empty_append]
          · rw [← hdrop1]
            rw [← hdrop1, usesOp_plain _ _ hc hb] at hop
            rw [if_neg hc, if_neg hb, ih (i + 1) _ (by omega) hop, String.append_assoc,
              formatTrace_plain _ _ _ _ hc hb]
      · have hlast : fmt.drop (i + 1) = [] := List.drop_eq_nil_of_le (by omega)
        rw [hlast] at hop
        rw [hlast]
        have hnil : printOp ops r = some opText ∨ usesOp (fmt.drop (i + 1)) = false := by
          rw [hlast]
          exact Or.inr rfl
        have hrec := ih (i + 1) out (by omega) hnil
        rw [hlast] at hrec
        by_cases hc : fmt[i] = '%'
        · rw [if_pos hc, dif_neg h1, hrec, hc, formatTrace_percent_end]
          rfl
        · by_cases hb : fmt[i] = '\\'
          · rw [if_neg hc, if_pos hb, dif_neg h1, hrec, hb, formatTrace_backslash_end]
            rfl
          · have hrec2 := ih (i + 1) (out ++ String.singleton fmt[i]) (by omega) hnil
            rw [hlast] at hrec2
            rw [if_neg hc, if_neg hb, hrec2, String.append_assoc,
              formatTrace_plain _ _ _ _ hc hb]
    · have hdrop : fmt.drop i = [] := List.drop_eq_nil_of_le (by omega)
      rw [printLoop, dif_neg h, hdrop]
      simp [formatTrace]

theorem printLoop_fault (ops : List String) (r : Reader) (fmt : List Char)
    (hnone : printOp ops r = none) :
    ∀ fuel i out, fmt.length - i ≤ fuel → usesOp (fmt.drop i) = true →
      printLoop ops r fmt fuel i out = Emit.fault := by
  intro fuel
  induction fuel with
  | zero =>
    intro i out hle huse
    have hdrop : fmt.drop i = [] := List.drop_eq_nil_of_le (by omega)
    rw [hdrop] at huse
    cases huse
  | succ fuel ih =>
    intro i out hle huse
    by_cases h : i < fmt.length
    · have hdrop : fmt.drop i = fmt[i] :: fmt.drop (i + 1) := List.drop_eq_getElem_cons h
      rw [hdrop] at huse
      rw [printLoop, dif_pos h]
      by_cases h1 : i < fmt.length - 1
      · have h1x : i + 1 < fmt.length := by omega
        have hdrop1 : fmt.drop (i + 1) = fmt[i + 1] :: fmt.drop (i + 2) :=
          List.drop_eq_getElem_cons h1x
        by_cases hc : fmt[i] = '%'
        · rw [hdrop1, hc, usesOp_percent_cons] at huse
          rw [if_pos hc, dif_pos h1]
          by_cases hd2 : fmt[i + 1] = 'o'
          · have hd1 : fmt[i + 1] ≠ 'i' := by
              rw [hd2]
              decide
            rw [if_neg hd1, if_pos hd2, hnone]
          · have hrest : usesOp (fmt.drop (i + 2)) = true := by simpa [hd2] using huse
            by_cases hd1 : fmt[i + 1] = 'i'
            · rw [if_pos hd1]
              exact ih (i + 2) _ (by omega) hrest
            · by_cases hd3 : fmt[i + 1] = '%'
              · rw [if_neg hd1, if_neg hd2, if_pos hd3]
                exact ih (i + 2) _ (by omega) hrest
              · rw [if_neg hd1, if_neg hd2, if_neg hd3]
                exact ih (i + 2) _ (by omega) hrest
        · by_cases hb : fmt[i] = '\\'
          · rw [hdrop1, hb, usesOp_backslash_cons] at huse
            rw [if_neg hc, if_pos hb, dif_pos h1]
            by_cases hd1 : fmt[i + 1] = 'n'
            · rw [if_pos hd1]
              exact ih (i + 2) _ (by omega) huse
            · by_cases hd2 : fmt[i + 1] = 't'
              · rw [if_neg hd1, if_pos hd2]
                exact ih (i + 2) _ (by omega) huse
              · by_cases hd3 : fmt[i + 1] = '\\'
                · rw [if_neg hd1, if_neg hd2, if_pos hd3]
                  exact ih (i + 2) _ (by omega) huse
                · rw [if_neg hd1, if_neg hd2, if_neg hd3]
                  exact ih (i + 2) _ (by omega) huse
          · rw [usesOp_plain _ _ hc hb] at huse
            rw [if_neg hc, if_neg hb]
            exact ih (i + 1) _ (by omega) huse
      · have hlast : fmt.drop (i + 1) = [] := List.drop_eq_nil_of_le (by omega)
        rw [hlast] at huse
        by_cases hc : fmt[i] = '%'
        · rw [hc] at huse
          simp [usesOp] at huse
        · by_cases hb : fmt[i] = '\\'
          · rw [hb] at huse
            simp [usesOp] at huse
          · rw [usesOp_plain _ _ hc hb] at huse
            cases huse
    · have hdrop : fmt.drop i = [] := List.drop_eq_nil_of_le (by omega)
      rw [hdrop] at huse
      cases huse

theorem formatTrace_plain_text (ipText opText : String) (l : List Char)
    (h : ∀ c ∈ l, c ≠ '%' ∧ c ≠ '\\') :
    formatTrace ipText opText l = String.mk l ∧ usesOp l = false := by
  induction l with
  | nil => exact ⟨rfl, rfl⟩
  | cons c rest ih =>
    have hc := h c (List.mem_cons_self c rest)
    have hrest := ih (fun d hd => h d (List.mem_cons_of_mem c hd))
    rw [formatTrace_plain _ _ _ _ hc.1 hc.2, usesOp_plain _ _ hc.1 hc.2, hrest.1]
    exact ⟨rfl, hrest.2⟩

theorem print_eq_of_scan (ops : List String) (r : Reader) (fmt opText : String) (fuel : Nat)
    (hfuel : fmt.toList.length ≤ fuel)
    (h : printOp ops r = some opText ∨ usesOp fmt.toList = false) :
    printFuel ops r fmt fuel = Emit.text (formatTrace (toString r.m_ip) opText fmt.toList) := by
  unfold printFuel
  rw [printLoop_scan ops r fmt.toList opText fuel 0 "" (by omega) h, String.empty_append]
  rfl

/-- C13: the text that `print` writes is the one left-to-right scan of the
template that `formatTrace` describes: the decimal IP for percent-i, the text
of the current opcode for percent-o, a percent sign for a doubled one, nothing
for a percent sign or backslash with any other character or at the end, the
newline, tab and backslash escapes, and every other character itself.  A
template without percent sign and backslash is written unchanged, and the scan
ends within as many iterations as the template has characters, for every
template, the empty one included. -/
theorem print_scan (ops : List String) (r : Reader) (fmt : String) :
    (∀ opText, printOp ops r = some opText →
      print ops r fmt = Emit.text (formatTrace (toString r.m_ip) opText fmt.toList)) ∧
    (∀ opText, usesOp fmt.toList = false →
      print ops r fmt = Emit.text (formatTrace (toString r.m_ip) opText fmt.toList)) ∧
    ((∀ c ∈ fmt.toList, c ≠ '%' ∧ c ≠ '\\') → print ops r fmt = Emit.text fmt) ∧
    print ops r "" = Emit.text "" ∧
    print ops r fmt ≠ Emit.timeout ∧
    (∀ fuel, fmt.toList.length ≤ fuel → printFuel ops r fmt fuel = print ops r fmt) := by
  have hspec : ∀ opText fuel, fmt.toList.length ≤ fuel →
      (printOp ops r = some opText ∨ usesOp fmt.toList = false) →
      printFuel ops r fmt fuel
        = Emit.text (formatTrace (toString r.m_ip) opText fmt.toList) :=
    fun opText fuel hfuel h => print_eq_of_scan ops r fmt opText fuel hfuel h
  have hfault : printOp ops r = none → usesOp fmt.toList = true →
      ∀ fuel, fmt.toList.length ≤ fuel → printFuel ops r fmt fuel = Emit.fault :=
    fun hnone huse fuel hfuel =>
      printLoop_fault ops r fmt.toList hnone fuel 0 "" (by omega) huse
  refine ⟨fun opText h => hspec opText _ (Nat.le_refl _) (Or.inl h),
    fun opText h => hspec opText _ (Nat.le_refl _) (Or.inr h), ?_, ?_, ?_, ?_⟩
  · intro hplain
    have hp := formatTrace_plain_text (toString r.m_ip) "" fmt.toList hplain
    have := hspec "" _ (Nat.le_refl _) (Or.inr hp.2)
    rw [hp.1] at this
    exact this
  · rfl
  · cases hop : printOp ops r with
    | some opText =>
      show printFuel ops r fmt fmt.toList.length ≠ Emit.timeout
      rw [hspec opText _ (Nat.le_refl _) (Or.inl hop)]
      intro h
      cases h
    | none =>
      show printFuel ops r fmt fmt.toList.length ≠ Emit.timeout
      cases huse : usesOp fmt.toList with
      | false =>
        rw [hspec "" _ (Nat.le_refl _) (Or.inr huse)]
        intro h
        cases h
      | true =>
        rw [hfault hop huse _ (Nat.le_refl _)]
        intro h
        cases h
  · intro fuel hfuel
    show printFuel ops r fmt fuel = printFuel ops r fmt fmt.toList.length
    cases hop : printOp ops r with
    | some opText =>
      rw [hspec opText _ hfuel (Or.inl hop), hspec opText _ (Nat.le_refl _) (Or.inl hop)]
    | none =>
      cases huse : usesOp fmt.toList with
      | false =>
        rw [hspec "" _ hfuel (Or.inr huse), hspec "" _ (Nat.le_refl _) (Or.inr huse)]
      | true =>
        rw [hfault hop huse _ hfuel, hfault hop huse _ (Nat.le_refl _)]

theorem print_scan_example :
    print exOps { exReader with m_ip := 3 } "%i: %o\n%%\\t\\q%q\\"
      = Emit.text "3: !ERR!\n%\t" ∧
    formatTrace "3" "!ERR!" "%i: %o\n%%\\t\\q%q\\".toList = "3: !ERR!\n%\t" := by
  set_option maxRecDepth 100000 in decide

theorem printOp_of_valid (ops : List String) (r : Reader) (op : Nat) (name : String)
    (hop : getOp ops r r.m_ip = some op) (hvalid : isValidOp ops op = true)
    (hname : (opcode_names ops)[op]? = some name) : printOp ops r = some name := by
  have hcur : getCurrentOp ops r = some op := hop
  simp [printOp, hcur, hvalid, hname]

theorem printOp_of_invalid (ops : List String) (r : Reader) (op : Nat)
    (hop : getOp ops r r.m_ip = some op) (hvalid : isValidOp ops op = false) :
    printOp ops r = some "!ERR!" := by
  have hcur : getCurrentOp ops r = some op := hop
  simp [printOp, hcur, hvalid]

theorem opcode_names_of_valid (ops : List String) (op : Nat) (hvalid : isValidOp ops op = true) :
    ∃ name, (opcode_names ops)[op]? = some name := by
  have hlt : op < (opcode_names ops).length := by
    have h : op < OP_MAXDEFINED ops := by simpa [isValidOp] using hvalid
    simpa [opcode_names, OP_MAXDEFINED, OP_RET] using h
  exact ⟨_, List.getElem?_eq_getElem hlt⟩

theorem formatTrace_line_escape (ipText opText : String) :
    formatTrace ipText opText "%i: %o\\n".toList = ipText ++ ": " ++ opText ++ "\n" := by
  apply String.ext
  simp [formatTrace, specDirective, specEscape, String.singleton]

theorem formatTrace_line_newline (ipText opText : String) :
    formatTrace ipText opText "%i: %o\n".toList = ipText ++ ": " ++ opText ++ "\n" := by
  apply String.ext
  simp [formatTrace, specDirective, specEscape, String.singleton]

theorem print_line (ops : List String) (r : Reader) (opText : String)
    (hip : r.m_ip = 3) (h : printOp ops r = some opText) :
    print ops r "%i: %o\\n" = Emit.text ("3: " ++ opText ++ "\n") ∧
    print ops r "%i: %o\n" = Emit.text ("3: " ++ opText ++ "\n") := by
  have h3 : toString r.m_ip = "3" := by
    rw [hip]
    rfl
  constructor
  · show printFuel ops r "%i: %o\\n" _ = _
    rw [print_eq_of_scan ops r _ opText _ (Nat.le_refl _) (Or.inl h), h3,
      formatTrace_line_escape]
    rfl
  · show printFuel ops r "%i: %o\n" _ = _
    rw [print_eq_of_scan ops r _ opText _ (Nat.le_refl _) (Or.inl h), h3,
      formatTrace_line_newline]
    rfl

/-- C14: with the IP at offset 3 of a buffer longer than 3, `print` of the
template percent-i, colon, blank, percent-o, newline (the newline written as a
backslash escape or as the character) writes `3: `, the name-table entry of
`getOp(3)` and a newline when `isValidOp(getOp(3))` holds, and writes
`3: !ERR!` and a newline when the raw byte at offset 3 is not 254 and is at
least `OP_MAXDEFINED`. -/
theorem print_ip_op_line (ops : List String) (r : Reader) (raw : Nat)
    (hip : r.m_ip = 3) (hraw : r.m_buffer[3]? = some raw) (hbyte : raw < 256) :
    3 < r.m_buffer.length ∧
    (∀ op, getOp ops r 3 = some op → isValidOp ops op = true →
      ∃ name, (opcode_names ops)[op]? = some name ∧
        print ops r "%i: %o\\n" = Emit.text ("3: " ++ name ++ "\n") ∧
        print ops r "%i: %o\n" = Emit.text ("3: " ++ name ++ "\n")) ∧
    (raw ≠ 254 → OP_MAXDEFINED ops ≤ raw →
      print ops r "%i: %o\\n" = Emit.text "3: !ERR!\n" ∧
      print ops r "%i: %o\n" = Emit.text "3: !ERR!\n") := by
  refine ⟨?_, ?_, ?_⟩
  · by_cases h : 3 < r.m_buffer.length
    · exact h
    · rw [List.getElem?_eq_none (Nat.le_of_not_lt h)] at hraw
      cases hraw
  · intro op hop hvalid
    obtain ⟨name, hname⟩ := opcode_names_of_valid ops op hvalid
    have hop3 : getOp ops r r.m_ip = some op := by
      rw [hip]
      exact hop
    exact ⟨name, hname, print_line ops r name hip (printOp_of_valid ops r op name hop3 hvalid hname)⟩
  · intro h254 hmax
    have hop3 : getOp ops r r.m_ip = some raw := by
      rw [hip, getOp_of_byte ops r 3 raw hraw, if_neg h254, Nat.mod_eq_of_lt hbyte]
    have hinvalid : isValidOp ops raw = false := by
      simp [isValidOp]
      omega
    exact print_line ops r "!ERR!" hip (printOp_of_invalid ops r raw hop3 hinvalid)

theorem print_ip_op_line_witness :
    print ["NOP", "ADD"] { Reader.new with m_ip := 3, m_buffer := [0, 0, 0, 1, 200] } "%i: %o\\n"
      = Emit.text "3: ADD\n" ∧
    print ["NOP", "ADD"] { Reader.new with m_ip := 3, m_buffer := [0, 0, 0, 200] } "%i: %o\n"
      = Emit.text "3: !ERR!\n" := by
  obtain ⟨_, hvalid, _⟩ :=
    print_ip_op_line ["NOP", "ADD"] { Reader.new with m_ip := 3, m_buffer := [0, 0, 0, 1, 200] } 1
      rfl rfl (by decide)
  obtain ⟨name, hname, hout, _⟩ := hvalid 1 rfl rfl
  have hadd : name = "ADD" := (Option.some.inj hname).symm
  subst hadd
  obtain ⟨_, _, hinvalid⟩ :=
    print_ip_op_line ["NOP", "ADD"] { Reader.new with m_ip := 3, m_buffer := [0, 0, 0, 200] } 200
      rfl rfl (by decide)
  exact ⟨hout, (hinvalid (by decide) (by decide)).2⟩

/-! ## Reads outside the buffer and the name table -/

theorem step_none_of_ge (ops : List String) (r : Reader)
    (h : r.m_buffer.length ≤ r.m_ip) : step ops r = none := by
  simp [step, getCurrentInstructionSize, getInstructionSize, getOp_none ops r r.m_ip h]

/-- C15, at the failing input: on the one-byte trace `[0]` with the info
string percent-o, the command `s` makes `step` return `STATE_FINISH` with the
IP at 1, the end of the buffer, and the `info()` call that follows reads the
buffer at offset 1, outside it. -/
theorem info_after_finish_reads_out_of_range :
    (step exOps (load (some ([0], true)) Reader.new).2).map (fun p => (p.1, p.2.m_ip))
      = some (ExecState.STATE_FINISH, 1) ∧
    (ReaderCLI.command_s exOps
        (ReaderCLI.setInfo
          { ReaderCLI.new with m_reader := (load (some ([0], true)) Reader.new).2 } "%o")).map
      (fun p => (p.1.m_reader.m_ip, p.1.m_reader.m_buffer.length, p.2))
      = some (1, 1, Emit.fault) := by
  set_option maxRecDepth 100000 in decide

/-- C16, at the failing input: on the trace `[5, 254, 9]` with three ordinary
opcodes, `raw 0 3` writes the lines 5, 3, 9: the byte 254 goes through `getOp`
and comes out as the value of `OP_RET`. -/
theorem raw_dump_maps_sentinel :
    ReaderCLI.raw exOps
        { ReaderCLI.new with m_reader := (load (some ([5, 254, 9], true)) Reader.new).2 } [0, 3]
      = some "5\n3\n9\n" ∧
    OP_RET exOps = 3 := by
  set_option maxRecDepth 100000 in decide

/-- C17, at the failing input: on the trace `[0, 200]` with three ordinary
opcodes, one `step` lands on the unknown byte 200 and counts it, and
`printCounts` then reads `opcode_names[200]`, outside the table of four
names. -/
theorem printCounts_after_unknown_byte_reads_out_of_range :
    (step exOps (load (some ([0, 200], true)) Reader.new).2).map
      (fun p => (p.1, p.2.m_hitcounts[200]?, printCounts exOps p.2))
      = some (ExecState.STATE_STOP, some 1, none) ∧
    (opcode_names exOps).length = 4 := by
  set_option maxRecDepth 100000 in decide

/-- C18, at the failing input: on the one-byte trace `[0]` the first `step`
returns `STATE_FINISH` and leaves the IP at 1; a second `step`, and likewise
`cont` and `finish`, then read the buffer at offset 1, outside it, instead of
returning `STATE_FINISH`. -/
theorem step_after_finish_reads_out_of_range :
    (step exOps (load (some ([0], true)) Reader.new).2).map
      (fun p => (p.1, p.2.m_ip, step exOps p.2, cont exOps 1 p.2, finish exOps 1 p.2))
      = some (ExecState.STATE_FINISH, 1, none, Outcome.fault, Outcome.fault) := by
  set_option maxRecDepth 100000 in decide

theorem loops_fault_of_ge (ops : List String) (r : Reader) (fuel : Nat)
    (h : r.m_buffer.length ≤ r.m_ip) :
    cont ops (fuel + 1) r = Outcome.fault ∧ finish ops fuel r = Outcome.fault := by
  have hcur : getCurrentOp ops r = none := getOp_none ops r r.m_ip h
  constructor
  · simp [cont, step_none_of_ge ops r h]
  · cases fuel <;> simp [finish, hcur]

/-! ## Well-formed traces -/

theorem instrStart_le (ops : List String) (buf : List Nat) (hops : OP_RET ops ≤ 254)
    (hwf : WellFormedTrace ops buf) (p : Nat) (h : InstrStart ops buf p) :
    p ≤ buf.length := by
  induction h with
  | zero => exact Nat.zero_le _
  | ordinary p raw _ hraw _ _ =>
    obtain ⟨hlt, _⟩ := List.getElem?_eq_some.mp hraw
    omega
  | terminator p hp hraw _ =>
    obtain ⟨hlt, _⟩ := List.getElem?_eq_some.mp hraw
    obtain ⟨raw, hraw2, hcase⟩ := hwf p hp hlt
    rw [hraw] at hraw2
    have e : 254 = raw := Option.some.inj hraw2
    subst e
    rcases hcase with h1 | ⟨_, h2⟩
    · omega
    · omega

theorem step_wellformed (ops : List String) (r r1 : Reader) (st : ExecState)
    (hops : OP_RET ops ≤ 254) (hwf : WellFormedTrace ops r.m_buffer)
    (hlen : r.m_buffer.length < 2 ^ 63) (hsized : Sized r)
    (hstart : InstrStart ops r.m_buffer r.m_ip) (hip : r.m_ip < r.m_buffer.length)
    (hstep : step ops r = some (st, r1)) :
    r1.m_buffer = r.m_buffer ∧ r1.m_breakpoints = r.m_breakpoints ∧
    InstrStart ops r.m_buffer r1.m_ip ∧ r1.m_ip ≤ r.m_buffer.length ∧
    (st ≠ ExecState.STATE_FINISH → r1.m_ip < r.m_buffer.length) ∧
    (st = ExecState.STATE_FINISH → r1.m_ip = r.m_buffer.length) ∧
    (st = ExecState.STATE_BREAKPOINT → r1.m_breakpoints[r1.m_ip]? = some true) := by
  obtain ⟨st2, r2, hstep2, _, hbuf, hbp, hfin, hin, hbreak, _⟩ :=
    step_progress ops r hlen hsized hip
  rw [hstep] at hstep2
  have e1 : st = st2 := (Prod.mk.inj (Option.some.inj hstep2)).1
  have e2 : r1 = r2 := (Prod.mk.inj (Option.some.inj hstep2)).2
  subst e1
  subst e2
  obtain ⟨raw, hraw, hcase⟩ := hwf r.m_ip hstart hip
  have hsizes := getInstructionSize_byte_cases ops r r.m_ip raw hops hraw
  have hnext : InstrStart ops r.m_buffer r1.m_ip := by
    rcases hcase with h1 | ⟨h2, _⟩
    · have hsz := hsizes.1 h1
      rw [step_ip ops r r1 1 st hsz (by omega) hstep]
      exact InstrStart.ordinary r.m_ip raw hstart hraw h1
    · have hsz := hsizes.2 h2
      rw [step_ip ops r r1 2 st hsz (by omega) hstep]
      rw [h2] at hraw
      exact InstrStart.terminator r.m_ip hstart hraw
  have hle : r1.m_ip ≤ r.m_buffer.length := instrStart_le ops r.m_buffer hops hwf _ hnext
  exact ⟨hbuf, hbp, hnext, hle, hin, fun h => Nat.le_antisymm hle (hfin h), hbreak⟩

theorem stepTimes_inv (ops : List String) (buf : List Nat) (hops : OP_RET ops ≤ 254)
    (hwf : WellFormedTrace ops buf) (hlen : buf.length < 2 ^ 63) (n : Nat) :
    ∀ r rn : Reader, r.m_buffer = buf → InstrStart ops buf r.m_ip → Sized r →
      stepTimes ops n r = some rn →
      rn.m_buffer = buf ∧ rn.m_breakpoints = r.m_breakpoints ∧
        InstrStart ops buf rn.m_ip ∧ Sized rn := by
  induction n with
  | zero =>
    intro r rn hbuf hstart hsized h
    have e : r = rn := Option.some.inj h
    subst e
    exact ⟨hbuf, rfl, hstart, hsized⟩
  | succ n ih =>
    intro r rn hbuf hstart hsized h
    subst hbuf
    by_cases hip : r.m_ip < r.m_buffer.length
    · unfold stepTimes at h
      split at h
      · next st r1 hstep =>
        obtain ⟨hbuf1, hbp1, hstart1, _⟩ :=
          step_wellformed ops r r1 st hops hwf hlen hsized hstart hip hstep
        have hsized1 : Sized r1 := by
          unfold Sized at *
          rw [hbuf1, hbp1]
          exact hsized
        obtain ⟨h1, h2, h3, h4⟩ := ih r1 rn hbuf1 hstart1 hsized1 h
        exact ⟨h1, h2.trans hbp1, h3, h4⟩
      · cases h
    · have hnone := step_none_of_ge ops r (Nat.le_of_not_lt hip)
      simp [stepTimes, hnone] at h

theorem stepTimes_of_stepStops (ops : List String) (n : Nat) :
    ∀ r rn : Reader, stepStops ops n r = some rn → stepTimes ops n r = some rn := by
  induction n with
  | zero =>
    intro r rn h
    exact h
  | succ n ih =>
    intro r rn h
    obtain ⟨r1, hstep, hrest⟩ := stepStops_succ_some ops n r rn h
    simp only [stepTimes, hstep]
    exact ih r1 rn hrest

theorem not_flag_of_all_false (flags : List Bool) (i : Nat)
    (hall : ∀ b ∈ flags, b = false) : flags[i]? ≠ some true := by
  intro h
  obtain ⟨hlt, hget⟩ := List.getElem?_eq_some.mp h
  have hmem : flags[i] ∈ flags := List.getElem_mem hlt
  rw [hget] at hmem
  exact Bool.noConfusion (hall true hmem)

/-- C19: on a non-empty well-formed trace (at most 254 ordinary opcodes),
started at IP 0: every IP that repeated calls of `step` produce is an
instruction start and at most `N`; an IP at which `step` returned `STATE_STOP`
or `STATE_BREAKPOINT` is below `N`; a `step` that returns `STATE_FINISH`
leaves the IP at `N` exactly; and with no breakpoint set `cont` returns
`STATE_FINISH` with the IP at `N`. -/
theorem wellformed_trace_run (ops : List String) (r : Reader) (hops : OP_RET ops ≤ 254)
    (hlen : r.m_buffer.length < 2 ^ 63) (hsized : Sized r) (hne : r.m_buffer ≠ [])
    (hzero : r.m_ip = 0) (hwf : WellFormedTrace ops r.m_buffer) :
    (∀ n rn, stepTimes ops n r = some rn →
      rn.m_ip ≤ r.m_buffer.length ∧ InstrStart ops r.m_buffer rn.m_ip) ∧
    (∀ n rn st r1, stepTimes ops n r = some rn → step ops rn = some (st, r1) →
      r1.m_ip ≤ r.m_buffer.length ∧ InstrStart ops r.m_buffer r1.m_ip ∧
      (st = ExecState.STATE_STOP ∨ st = ExecState.STATE_BREAKPOINT →
        r1.m_ip < r.m_buffer.length) ∧
      (st = ExecState.STATE_FINISH → r1.m_ip = r.m_buffer.length)) ∧
    ((∀ b ∈ r.m_breakpoints, b = false) →
      ∃ r1, cont ops r.m_buffer.length r = Outcome.ret ExecState.STATE_FINISH r1 ∧
        r1.m_ip = r.m_buffer.length) := by
  have hstart : InstrStart ops r.m_buffer r.m_ip := by
    rw [hzero]
    exact InstrStart.zero
  have hinv := fun n rn (h : stepTimes ops n r = some rn) =>
    stepTimes_inv ops r.m_buffer hops hwf hlen n r rn rfl hstart hsized h
  have hafter : ∀ n rn st r1, stepTimes ops n r = some rn → step ops rn = some (st, r1) →
      r1.m_breakpoints = r.m_breakpoints ∧
      r1.m_ip ≤ r.m_buffer.length ∧ InstrStart ops r.m_buffer r1.m_ip ∧
      (st ≠ ExecState.STATE_FINISH → r1.m_ip < r.m_buffer.length) ∧
      (st = ExecState.STATE_FINISH → r1.m_ip = r.m_buffer.length) ∧
      (st = ExecState.STATE_BREAKPOINT → r1.m_breakpoints[r1.m_ip]? = some true) := by
    intro n rn st r1 hn hstep
    obtain ⟨hbuf, hbp, hst, hsz⟩ := hinv n rn hn
    have hip : rn.m_ip < rn.m_buffer.length := by
      by_cases h : rn.m_ip < rn.m_buffer.length
      · exact h
      · rw [step_none_of_ge ops rn (Nat.le_of_not_lt h)] at hstep
        cases hstep
    have hw := step_wellformed ops rn r1 st hops (by rw [hbuf]; exact hwf)
      (by rw [hbuf]; exact hlen) hsz (by rw [hbuf]; exact hst) hip hstep
    rw [hbuf] at hw
    exact ⟨hw.2.1.trans hbp, hw.2.2.2.1, hw.2.2.1, hw.2.2.2.2.1, hw.2.2.2.2.2.1,
      hw.2.2.2.2.2.2⟩
  refine ⟨?_, ?_, ?_⟩
  · intro n rn hn
    obtain ⟨_, _, hst, _⟩ := hinv n rn hn
    exact ⟨instrStart_le ops r.m_buffer hops hwf _ hst, hst⟩
  · intro n rn st r1 hn hstep
    obtain ⟨_, hle, hst, hin, hfin, _⟩ := hafter n rn st r1 hn hstep
    refine ⟨hle, hst, ?_, hfin⟩
    intro hcase
    apply hin
    rcases hcase with h | h <;> rw [h] <;> decide
  · intro hall
    have hpos : r.m_ip < r.m_buffer.length := by
      rw [hzero]
      exact List.length_pos.mpr hne
    obtain ⟨n, rn, st, r1, hn, hstops, hlast, hst, hret, _⟩ :=
      cont_run ops (r.m_buffer.length - r.m_ip) r hlen hsized hpos (Nat.le_refl _)
    obtain ⟨hbp, _, _, _, hfin, hbreak⟩ :=
      hafter n rn st r1 (stepTimes_of_stepStops ops n r rn hstops) hlast
    have hfinish : st = ExecState.STATE_FINISH := by
      cases st
      · have hflag := hbreak rfl
        rw [hbp] at hflag
        exact absurd hflag (not_flag_of_all_false _ _ hall)
      · exact absurd rfl hst
      · rfl
    subst hfinish
    exact ⟨r1, hret _ (by omega), hfin rfl⟩

theorem instrStart_example (p : Nat) (h : InstrStart exOps [0, 1, 254, 7] p) :
    p = 0 ∨ p = 1 ∨ p = 2 ∨ p = 4 := by
  induction h with
  | zero => exact Or.inl rfl
  | ordinary p raw _ hraw hlt ih =>
    have hlt3 : raw < 3 := hlt
    rcases ih with rfl | rfl | rfl | rfl
    · exact Or.inr (Or.inl rfl)
    · exact Or.inr (Or.inr (Or.inl rfl))
    · have e : 254 = raw := Option.some.inj hraw
      omega
    · cases hraw
  | terminator p _ hraw ih =>
    rcases ih with rfl | rfl | rfl | rfl
    · cases hraw
    · cases hraw
    · exact Or.inr (Or.inr (Or.inr rfl))
    · cases hraw

theorem wellFormedTrace_example : WellFormedTrace exOps [0, 1, 254, 7] := by
  intro p hp hlt
  rcases instrStart_example p hp with rfl | rfl | rfl | rfl
  · exact ⟨0, rfl, Or.inl (by decide)⟩
  · exact ⟨1, rfl, Or.inl (by decide)⟩
  · exact ⟨254, rfl, Or.inr ⟨rfl, by decide⟩⟩
  · exact absurd hlt (by decide)

theorem wellformed_trace_run_witness :
    (∀ n rn, stepTimes exOps n (load (some ([0, 1, 254, 7], true)) Reader.new).2 = some rn →
      rn.m_ip ≤ 4 ∧ InstrStart exOps [0, 1, 254, 7] rn.m_ip) ∧
    (∀ n rn st r1,
      stepTimes exOps n (load (some ([0, 1, 254, 7], true)) Reader.new).2 = some rn →
      step exOps rn = some (st, r1) →
      r1.m_ip ≤ 4 ∧ InstrStart exOps [0, 1, 254, 7] r1.m_ip ∧
      (st = ExecState.STATE_STOP ∨ st = ExecState.STATE_BREAKPOINT → r1.m_ip < 4) ∧
      (st = ExecState.STATE_FINISH → r1.m_ip = 4)) ∧
    ((∀ b ∈ (load (some ([0, 1, 254, 7], true)) Reader.new).2.m_breakpoints, b = false) →
      ∃ r1, cont exOps 4 (load (some ([0, 1, 254, 7], true)) Reader.new).2
          = Outcome.ret ExecState.STATE_FINISH r1 ∧ r1.m_ip = 4) :=
  wellformed_trace_run exOps (load (some ([0, 1, 254, 7], true)) Reader.new).2 (by decide)
    (by decide) (by decide) (by decide) rfl wellFormedTrace_example

/-! ## Breakpoint flags of reachable states -/

theorem step_frame (ops : List String) (r r1 : Reader) (st : ExecState)
    (h : step ops r = some (st, r1)) :
    r1.m_buffer = r.m_buffer ∧ r1.m_breakpoints = r.m_breakpoints ∧
    (st = ExecState.STATE_BREAKPOINT → r.m_breakpoints[r1.m_ip]? = some true) := by
  simp only [step] at h
  split at h
  · cases h
  · split at h
    · obtain ⟨e1, e2⟩ := Prod.mk.inj (Option.some.inj h)
      rw [← e2, ← e1]
      exact ⟨rfl, rfl, fun hst => by cases hst⟩
    · split at h
      · cases h
      · split at h
        · cases h
        · next hflag =>
          obtain ⟨e1, e2⟩ := Prod.mk.inj (Option.some.inj h)
          rw [← e2]
          exact ⟨rfl, rfl, fun _ => hflag⟩
        · obtain ⟨e1, e2⟩ := Prod.mk.inj (Option.some.inj h)
          rw [← e2, ← e1]
          exact ⟨rfl, rfl, fun hst => by cases hst⟩

theorem cont_frame (ops : List String) (fuel : Nat) :
    ∀ r r1 : Reader, ∀ st, cont ops fuel r = Outcome.ret st r1 →
      r1.m_buffer = r.m_buffer ∧ r1.m_breakpoints = r.m_breakpoints := by
  induction fuel with
  | zero =>
    intro r r1 st h
    cases h
  | succ k ih =>
    intro r r1 st h
    cases hstep : step ops r with
    | none => simp [cont, hstep] at h
    | some p =>
      obtain ⟨st2, r2⟩ := p
      obtain ⟨hbuf, hbp, _⟩ := step_frame ops r r2 st2 hstep
      cases st2
      · simp only [cont, hstep] at h
        obtain ⟨_, e⟩ := Outcome.ret.inj h
        rw [← e]
        exact ⟨hbuf, hbp⟩
      · rw [cont_succ_of_stop ops k r r2 hstep] at h
        obtain ⟨h1, h2⟩ := ih r2 r1 st h
        exact ⟨h1.trans hbuf, h2.trans hbp⟩
      · simp only [cont, hstep] at h
        obtain ⟨_, e⟩ := Outcome.ret.inj h
        rw [← e]
        exact ⟨hbuf, hbp⟩

theorem finish_fault_of_none (ops : List String) (fuel : Nat) (r : Reader)
    (hcur : getCurrentOp ops r = none) : finish ops fuel r = Outcome.fault := by
  cases fuel <;> simp [finish, hcur]

theorem finish_frame (ops : List String) (fuel : Nat) :
    ∀ r r1 : Reader, ∀ st, finish ops fuel r = Outcome.ret st r1 →
      r1.m_buffer = r.m_buffer ∧ r1.m_breakpoints = r.m_breakpoints := by
  induction fuel with
  | zero =>
    intro r r1 st h
    cases hcur : getCurrentOp ops r with
    | none =>
      rw [finish_fault_of_none ops _ r hcur] at h
      cases h
    | some op =>
      by_cases hop : op = OP_RET ops
      · rw [hop] at hcur
        rw [finish_of_terminator ops 0 r hcur] at h
        obtain ⟨_, e⟩ := Outcome.ret.inj h
        rw [← e]
        exact ⟨rfl, rfl⟩
      · rw [finish_zero_of_other ops r op hcur hop] at h
        cases h
  | succ k ih =>
    intro r r1 st h
    cases hcur : getCurrentOp ops r with
    | none =>
      rw [finish_fault_of_none ops _ r hcur] at h
      cases h
    | some op =>
      by_cases hop : op = OP_RET ops
      · rw [hop] at hcur
        rw [finish_of_terminator ops (k + 1) r hcur] at h
        obtain ⟨_, e⟩ := Outcome.ret.inj h
        rw [← e]
        exact ⟨rfl, rfl⟩
      · cases hstep : step ops r with
        | none =>
          rw [finish] at h
          simp [hcur, hop, hstep] at h
        | some p =>
          obtain ⟨st2, r2⟩ := p
          obtain ⟨hbuf, hbp, _⟩ := step_frame ops r r2 st2 hstep
          by_cases hst : st2 = ExecState.STATE_STOP
          · subst hst
            rw [finish_succ_of_stop ops k r r2 op hcur hop hstep] at h
            obtain ⟨h1, h2⟩ := ih r2 r1 st h
            exact ⟨h1.trans hbuf, h2.trans hbp⟩
          · rw [finish_succ_of_other ops k r r2 op st2 hcur hop hstep hst] at h
            obtain ⟨_, e⟩ := Outcome.ret.inj h
            rw [← e]
            exact ⟨hbuf, hbp⟩

theorem resize_false (flags : List Bool) (n : Nat) (hall : ∀ b ∈ flags, b = false) :
    (resize flags n false).length = n ∧ ∀ b ∈ resize flags n false, b = false := by
  unfold resize
  constructor
  · rw [List.length_append, List.length_take, List.length_replicate]
    omega
  · intro b hb
    rcases List.mem_append.mp hb with h | h
    · exact hall b (List.mem_of_mem_take h)
    · exact (List.mem_replicate.mp h).2

theorem load_flags (file : Option (List Nat × Bool)) (r : Reader) (hsized : Sized r)
    (hall : ∀ b ∈ r.m_breakpoints, b = false) :
    Sized (load file r).2 ∧ ∀ b ∈ (load file r).2.m_breakpoints, b = false := by
  cases file with
  | none => exact ⟨hsized, hall⟩
  | some p =>
    obtain ⟨bytes, ok⟩ := p
    have h := resize_false r.m_breakpoints bytes.length hall
    exact ⟨h.1, h.2⟩

theorem reachable_flags (ops : List String) (r : Reader) (h : Reachable ops r) :
    Sized r ∧ ∀ b ∈ r.m_breakpoints, b = false := by
  induction h with
  | by_load file =>
    exact load_flags file Reader.new rfl (fun b hb => by cases hb)
  | by_reload r file _ ih => exact load_flags file r ih.1 ih.2
  | by_step r r1 st _ hstep ih =>
    obtain ⟨hbuf, hbp, _⟩ := step_frame ops r r1 st hstep
    unfold Sized at *
    rw [hbuf, hbp]
    exact ih
  | by_cont r r1 fuel st _ hcont ih =>
    obtain ⟨hbuf, hbp⟩ := cont_frame ops fuel r r1 st hcont
    unfold Sized at *
    rw [hbuf, hbp]
    exact ih
  | by_finish r r1 fuel st _ hfin ih =>
    obtain ⟨hbuf, hbp⟩ := finish_frame ops fuel r r1 st hfin
    unfold Sized at *
    rw [hbuf, hbp]
    exact ih
  | by_jump r ip _ ih => exact ih
  | by_push r ip _ ih => exact ih
  | by_pop r ip _ ih => exact ih
  | by_frame r ip _ ih => exact ih
  | by_frame_end r f _ ih => exact ih

/-- C20: no breakpoint flag is ever set.  `load` on a constructed engine
leaves as many flags as the buffer has bytes, all unset, and in every state
that `load`, `step`, `cont`, `finish`, `jump`, `push`, `pop` and the frame
tokens produce from it, the flags are sized to the buffer and all unset,
`step` does not return `STATE_BREAKPOINT`, and `cont` from an in-range IP
returns `STATE_FINISH`. -/
theorem breakpoints_never_set (ops : List String) (r : Reader) (h : Reachable ops r) :
    (∀ bytes ok, (load (some (bytes, ok)) Reader.new).2.m_breakpoints
      = List.replicate bytes.length false) ∧
    Sized r ∧ (∀ b ∈ r.m_breakpoints, b = false) ∧
    (∀ st r1, step ops r = some (st, r1) → st ≠ ExecState.STATE_BREAKPOINT) ∧
    (r.m_ip < r.m_buffer.length → r.m_buffer.length < 2 ^ 63 →
      ∃ r1, cont ops (r.m_buffer.length - r.m_ip) r
          = Outcome.ret ExecState.STATE_FINISH r1 ∧
        r.m_buffer.length ≤ r1.m_ip) := by
  obtain ⟨hsized, hall⟩ := reachable_flags ops r h
  refine ⟨?_, hsized, hall, ?_, ?_⟩
  · intro bytes ok
    unfold load Reader.new resize
    simp only [List.take_nil, List.nil_append, List.length_nil, Nat.sub_zero]
  · intro st r1 hstep hst
    obtain ⟨_, _, hflag⟩ := step_frame ops r r1 st hstep
    exact not_flag_of_all_false _ _ hall (hflag hst)
  · intro hip hlen
    obtain ⟨n, rn, st, r1, hn, hstops, hlast, hst, hret, _⟩ :=
      cont_run ops (r.m_buffer.length - r.m_ip) r hlen hsized hip (Nat.le_refl _)
    obtain ⟨hbufn, hbpn, _, hipn⟩ := stepStops_inv ops n r rn hlen hsized hip hstops
    obtain ⟨_, _, hflag⟩ := step_frame ops rn r1 st hlast
    have hsizedn : Sized rn := by
      unfold Sized at *
      rw [hbufn, hbpn]
      exact hsized
    obtain ⟨st2, r2, hstep2, _, _, _, hfin, _⟩ :=
      step_progress ops rn (by rw [hbufn]; exact hlen) hsizedn (by rw [hbufn]; exact hipn)
    rw [hlast] at hstep2
    have e1 : st = st2 := (Prod.mk.inj (Option.some.inj hstep2)).1
    have e2 : r1 = r2 := (Prod.mk.inj (Option.some.inj hstep2)).2
    subst e1
    subst e2
    have hfinish : st = ExecState.STATE_FINISH := by
      cases st
      · have hf := hflag rfl
        rw [hbpn] at hf
        exact absurd hf (not_flag_of_all_false _ _ hall)
      · exact absurd rfl hst
      · rfl
    subst hfinish
    have hge := hfin rfl
    rw [hbufn] at hge
    exact ⟨r1, hret _ hn, hge⟩

theorem breakpoints_never_set_witness :
    (∀ bytes ok, (load (some (bytes, ok)) Reader.new).2.m_breakpoints
      = List.replicate bytes.length false) ∧
    Sized (load (some ([0, 1, 254, 7], true)) Reader.new).2 ∧
    (∀ b ∈ (load (some ([0, 1, 254, 7], true)) Reader.new).2.m_breakpoints, b = false) ∧
    (∀ st r1, step exOps (load (some ([0, 1, 254, 7], true)) Reader.new).2 = some (st, r1) →
      st ≠ ExecState.STATE_BREAKPOINT) ∧
    ((load (some ([0, 1, 254, 7], true)) Reader.new).2.m_ip
        < (load (some ([0, 1, 254, 7], true)) Reader.new).2.m_buffer.length →
      (load (some ([0, 1, 254, 7], true)) Reader.new).2.m_buffer.length < 2 ^ 63 →
      ∃ r1, cont exOps
            ((load (some ([0, 1, 254, 7], true)) Reader.new).2.m_buffer.length
              - (load (some ([0, 1, 254, 7], true)) Reader.new).2.m_ip)
            (load (some ([0, 1, 254, 7], true)) Reader.new).2
          = Outcome.ret ExecState.STATE_FINISH r1 ∧
        (load (some ([0, 1, 254, 7], true)) Reader.new).2.m_buffer.length ≤ r1.m_ip) :=
  breakpoints_never_set exOps (load (some ([0, 1, 254, 7], true)) Reader.new).2
    (Reachable.by_load (some ([0, 1, 254, 7], true)))

end Reader

end Extempore
